import Mathlib

/-! AgenticSpoons option-pricing engine: embedding and checked properties.

Source files: `src/cpp_engine/black_scholes.hpp` (class `BlackScholesEngine`) and
`src/cpp_engine/monte_carlo.hpp` (class `MonteCarloEngine`).

Modelling conventions.

* A C++ `double` is an element of a linearly ordered field `α`, with exact arithmetic:
  rounding, infinities and NaN are outside the model. Every function of the engine is
  embedded generically in `α` and is computable, so it runs on `ℚ`; properties that need
  the true `exp`, `log`, `sqrt` are stated on `ℝ` with `realLibm`.
* The `<cmath>` functions the engine calls (`exp`, `log`, `sqrt`) and the constant `M_PI`
  are the fields of a record `Libm α` handed to every function. `realLibm` holds the real
  functions; `underflowLibm` differs from it by the one effect of double precision on which
  a property here depends, the underflow of `exp` to 0.
* A C++ `int` is an `Int`; a loop `for (i = 0; i < n; ++i)` runs `n.toNat` times.
* `std::vector` is `List`. In `price_portfolio` a read `v[i]` past the end of a vector,
  undefined behaviour in C++, is the `none` outcome of the model.
* The generator `rng` together with the distribution object `norm` is a state `G` and a
  function `norm : G → α × G`; one evaluation of `norm(rng)` is one application of it.
  Every Monte Carlo method returns its value together with the state it leaves.
* `#pragma omp parallel for` is read with its sequential meaning.
-/

/-- The `<cmath>` functions and constant used by the engine. -/
structure Libm (α : Type) where
  /-- The function `exp` of `<cmath>`. -/
  exp : α → α
  /-- The function `log` of `<cmath>`. -/
  log : α → α
  /-- The function `sqrt` of `<cmath>`. -/
  sqrt : α → α
  /-- The constant `M_PI` of `<cmath>`. -/
  pi : α

/-- The real-number math library: the functions that `<cmath>` approximates. -/
noncomputable def realLibm : Libm ℝ where
  exp := Real.exp
  log := Real.log
  sqrt := Real.sqrt
  pi := Real.pi

/-- The real-number math library with the underflow of `exp` in double precision: below
`-746` the true value of the exponential is less than half the smallest positive `double`
(about `4.9e-324`) and the `exp` of `<cmath>` returns 0. -/
noncomputable def underflowLibm : Libm ℝ where
  exp := fun x => if x < -746 then 0 else Real.exp x
  log := Real.log
  sqrt := Real.sqrt
  pi := Real.pi

namespace BlackScholesEngine

variable {α : Type} [LinearOrderedField α]

/-- Standard normal CDF, Abramowitz and Stegun approximation
(`black_scholes.hpp` lines 15-30). -/
def norm_cdf (m : Libm α) (x : α) : α :=
  let a1 : α := 0.254829592
  let a2 : α := -0.284496736
  let a3 : α := 1.421413741
  let a4 : α := -1.453152027
  let a5 : α := 1.061405429
  let p : α := 0.3275911
  let sign : α := if x < 0 then -1 else 1
  let x := |x| / m.sqrt 2
  let t := 1 / (1 + p * x)
  let y := 1 - (((((a5 * t + a4) * t) + a3) * t + a2) * t + a1) * t * m.exp (-x * x)
  0.5 * (1 + sign * y)

/-- Standard normal PDF (lines 33-35). -/
def norm_pdf (m : Libm α) (x : α) : α :=
  (1 / m.sqrt (2 * m.pi)) * m.exp (-0.5 * x * x)

/-- Black-Scholes `d1` (lines 37-39). -/
def d1 (m : Libm α) (S K T r sigma : α) : α :=
  (m.log (S / K) + (r + 0.5 * sigma * sigma) * T) / (sigma * m.sqrt T)

/-- Black-Scholes `d2` (lines 41-43). -/
def d2 (m : Libm α) (S K T r sigma : α) : α :=
  d1 m S K T r sigma - sigma * m.sqrt T

/-- Call option price (lines 47-52). -/
def call_price (m : Libm α) (S K T r sigma : α) : α :=
  let d1_val := d1 m S K T r sigma
  let d2_val := d2 m S K T r sigma
  S * norm_cdf m d1_val - K * m.exp (-r * T) * norm_cdf m d2_val

/-- Put option price (lines 55-60). -/
def put_price (m : Libm α) (S K T r sigma : α) : α :=
  let d1_val := d1 m S K T r sigma
  let d2_val := d2 m S K T r sigma
  K * m.exp (-r * T) * norm_cdf m (-d2_val) - S * norm_cdf m (-d1_val)

/-- Delta (lines 63-66). -/
def delta (m : Libm α) (S K T r sigma : α) (is_call : Bool) : α :=
  let d1_val := d1 m S K T r sigma
  if is_call then norm_cdf m d1_val else norm_cdf m d1_val - 1

/-- Gamma, the same for call and put (lines 69-72). -/
def gamma (m : Libm α) (S K T r sigma : α) : α :=
  let d1_val := d1 m S K T r sigma
  norm_pdf m d1_val / (S * sigma * m.sqrt T)

/-- Vega, the same for call and put (lines 75-78). -/
def vega (m : Libm α) (S K T r sigma : α) : α :=
  let d1_val := d1 m S K T r sigma
  S * norm_pdf m d1_val * m.sqrt T

/-- The statement through which a run of the loop of `implied_volatility` leaves it. -/
inductive Exit where
  /-- Line 112, `return sigma`: the price difference is below the tolerance. -/
  | converged
  /-- Line 109, `break`: the vega is below `1e-10` in absolute value. -/
  | degenerate
  /-- Line 104: the loop condition `i < max_iterations` fails. -/
  | exhausted
  deriving DecidableEq, Repr

/-- The loop of `implied_volatility` (lines 104-116) with `fuel = max_iterations - i`
iterations left, started at `sigma`: the value of `sigma` when the loop is left, and the
statement through which it is left. -/
def implied_volatility_search (m : Libm α) (option_price S K T r : α) (is_call : Bool) :
    Nat → α → Exit × α
  | 0, sigma => (Exit.exhausted, sigma)
  | fuel + 1, sigma =>
    let price := if is_call then call_price m S K T r sigma else put_price m S K T r sigma
    let vega_val := vega m S K T r sigma
    if |vega_val| < 1e-10 then (Exit.degenerate, sigma)
    else
      let diff := option_price - price
      if |diff| < 1e-6 then (Exit.converged, sigma)
      else
        let sigma := sigma + diff / vega_val
        let sigma := max 0.001 (min sigma 5.0)
        implied_volatility_search m option_price S K T r is_call fuel sigma

/-- Implied volatility using Newton-Raphson (lines 98-119). Both `return sigma` statements
hand back the bare number. -/
def implied_volatility (m : Libm α) (option_price S K T r : α) (is_call : Bool)
    (initial_guess : α) : α :=
  (implied_volatility_search m option_price S K T r is_call 100 initial_guess).2

/-- The default value of the parameter `initial_guess` of `implied_volatility` (line 99). -/
def initial_guess_default : α := 0.3

/-- The right-hand side of the assignment to `prices[i]` (lines 136-138); `none` when one of
the six reads `v[i]` is past the end of its vector. -/
def portfolio_entry (m : Libm α) (S_vec K_vec T_vec r_vec sigma_vec : List α)
    (is_call_vec : List Bool) (i : Nat) : Option α := do
  let c ← is_call_vec[i]?
  let s ← S_vec[i]?
  let k ← K_vec[i]?
  let t ← T_vec[i]?
  let r ← r_vec[i]?
  let sg ← sigma_vec[i]?
  pure (if c then call_price m s k t r sg else put_price m s k t r sg)

/-- Vectorized pricing for portfolio (lines 122-142): `n` is the length of `S_vec`, `prices`
starts as `n` zeros and entry `i` is assigned for `i = 0, ..., n-1`. -/
def price_portfolio (m : Libm α) (S_vec K_vec T_vec r_vec sigma_vec : List α)
    (is_call_vec : List Bool) : Option (List α) :=
  let n := S_vec.length
  let prices : List α := List.replicate n 0
  (List.range n).foldlM
    (fun prices i => do
      let v ← portfolio_entry m S_vec K_vec T_vec r_vec sigma_vec is_call_vec i
      pure (prices.set i v))
    prices

/-- The error conditions named in section 7 of the specification. The engine source has no
`throw` statement and no error return value: none of its functions produces any of them. -/
inductive EngineError where
  | invalidArgument
  | numericalDegeneracy
  | convergenceFailure
  deriving DecidableEq, Repr

/-- What a caller of `call_price` receives: the function has return type `double` and
returns on every path (lines 47-52). -/
def call_price_outcome (m : Libm α) (S K T r sigma : α) : Except EngineError α :=
  Except.ok (call_price m S K T r sigma)

/-- What a caller of `put_price` receives: the function has return type `double` and
returns on every path (lines 55-60). -/
def put_price_outcome (m : Libm α) (S K T r sigma : α) : Except EngineError α :=
  Except.ok (put_price m S K T r sigma)

end BlackScholesEngine

namespace MonteCarloEngine

variable {α : Type} [LinearOrderedField α] {G : Type}

/-- The payoff expression `is_call ? std::max(0.0, x - K) : std::max(0.0, K - x)` that each
pricing method applies to a price `x`. -/
def vanilla_payoff (is_call : Bool) (K x : α) : α :=
  if is_call then max 0 (x - K) else max 0 (K - x)

/-- The loop of `price_european` (`monte_carlo.hpp` lines 30-42) with `k` iterations left. -/
def price_european_loop (m : Libm α) (norm : G → α × G) (S0 K drift diffusion : α)
    (is_call : Bool) : Nat → G → α → α × G
  | 0, rng, sum_payoffs => (sum_payoffs, rng)
  | k + 1, rng, sum_payoffs =>
    let z := (norm rng).1
    let rng := (norm rng).2
    let ST1 := S0 * m.exp (drift + diffusion * z)
    let payoff1 := vanilla_payoff is_call K ST1
    let ST2 := S0 * m.exp (drift - diffusion * z)
    let payoff2 := vanilla_payoff is_call K ST2
    price_european_loop m norm S0 K drift diffusion is_call k rng
      (sum_payoffs + (payoff1 + payoff2) / 2)

/-- Price European option with antithetic variates (lines 21-45). The `int` division
`n_paths / 2` truncates. -/
def price_european (m : Libm α) (norm : G → α × G) (S0 K T r sigma : α) (is_call : Bool)
    (n_paths : Int) (rng : G) : α × G :=
  let drift := (r - 0.5 * sigma * sigma) * T
  let diffusion := sigma * m.sqrt T
  let res := price_european_loop m norm S0 K drift diffusion is_call
    (Int.tdiv n_paths 2).toNat rng 0
  (m.exp (-r * T) * res.1 / ((Int.tdiv n_paths 2 : Int) : α), res.2)

/-- The inner loop of `price_asian` (lines 61-65) with `k` iterations left: the generator,
`S` and `sum_S` when it ends. -/
def price_asian_steps (m : Libm α) (norm : G → α × G) (drift diffusion : α) :
    Nat → G → α → α → G × α × α
  | 0, rng, S, sum_S => (rng, S, sum_S)
  | k + 1, rng, S, sum_S =>
    let z := (norm rng).1
    let rng := (norm rng).2
    let S := S * m.exp (drift + diffusion * z)
    price_asian_steps m norm drift diffusion k rng S (sum_S + S)

/-- The outer loop of `price_asian` (lines 57-71) with `k` paths left. -/
def price_asian_paths (m : Libm α) (norm : G → α × G) (S0 K drift diffusion : α)
    (is_call : Bool) (n_steps : Int) : Nat → G → α → α × G
  | 0, rng, sum_payoffs => (sum_payoffs, rng)
  | k + 1, rng, sum_payoffs =>
    let S := S0
    let sum_S : α := 0
    let st := price_asian_steps m norm drift diffusion n_steps.toNat rng S sum_S
    let avg_price := st.2.2 / (n_steps : α)
    let payoff := vanilla_payoff is_call K avg_price
    price_asian_paths m norm S0 K drift diffusion is_call n_steps k st.1 (sum_payoffs + payoff)

/-- Asian option pricing (lines 48-74). -/
def price_asian (m : Libm α) (norm : G → α × G) (S0 K T r sigma : α) (is_call : Bool)
    (n_steps n_paths : Int) (rng : G) : α × G :=
  let dt := T / (n_steps : α)
  let drift := (r - 0.5 * sigma * sigma) * dt
  let diffusion := sigma * m.sqrt dt
  let res := price_asian_paths m norm S0 K drift diffusion is_call n_steps n_paths.toNat rng 0
  (m.exp (-r * T) * res.1 / (n_paths : α), res.2)

/-- The inner loop of `price_barrier` (lines 90-102) with `k` iterations left: the
generator, `S` and `barrier_hit` when it ends, by `break` or by its loop condition. -/
def price_barrier_steps (m : Libm α) (norm : G → α × G) (B drift diffusion : α)
    (is_down_and_out : Bool) : Nat → G → α → G × α × Bool
  | 0, rng, S => (rng, S, false)
  | k + 1, rng, S =>
    let z := (norm rng).1
    let rng := (norm rng).2
    let S := S * m.exp (drift + diffusion * z)
    if is_down_and_out && decide (S ≤ B) then (rng, S, true)
    else if !is_down_and_out && decide (S ≥ B) then (rng, S, true)
    else price_barrier_steps m norm B drift diffusion is_down_and_out k rng S

/-- The outer loop of `price_barrier` (lines 86-108) with `k` paths left. -/
def price_barrier_paths (m : Libm α) (norm : G → α × G) (S0 K B drift diffusion : α)
    (is_call is_down_and_out : Bool) (n_steps : Int) : Nat → G → α → α × G
  | 0, rng, sum_payoffs => (sum_payoffs, rng)
  | k + 1, rng, sum_payoffs =>
    let st := price_barrier_steps m norm B drift diffusion is_down_and_out n_steps.toNat rng S0
    let S := st.2.1
    let barrier_hit := st.2.2
    let sum_payoffs := if !barrier_hit then sum_payoffs + vanilla_payoff is_call K S else sum_payoffs
    price_barrier_paths m norm S0 K B drift diffusion is_call is_down_and_out n_steps k st.1
      sum_payoffs

/-- Barrier option pricing (lines 77-111). -/
def price_barrier (m : Libm α) (norm : G → α × G) (S0 K B T r sigma : α)
    (is_call is_down_and_out : Bool) (n_steps n_paths : Int) (rng : G) : α × G :=
  let dt := T / (n_steps : α)
  let drift := (r - 0.5 * sigma * sigma) * dt
  let diffusion := sigma * m.sqrt dt
  let res := price_barrier_paths m norm S0 K B drift diffusion is_call is_down_and_out n_steps
    n_paths.toNat rng 0
  (m.exp (-r * T) * res.1 / (n_paths : α), res.2)

/-- The inner loop of `simulate_paths` (lines 130-134) with `k` iterations left, about to run
with loop variable `step`, on the row `paths[path]`. -/
def simulate_paths_steps (m : Libm α) (norm : G → α × G) (drift diffusion : α) :
    Nat → Nat → G → α → List α → List α × G
  | 0, _, rng, _, row => (row, rng)
  | k + 1, step, rng, S, row =>
    let z := (norm rng).1
    let rng := (norm rng).2
    let S := S * m.exp (drift + diffusion * z)
    simulate_paths_steps m norm drift diffusion k (step + 1) rng S (row.set step S)

/-- The outer loop of `simulate_paths` (lines 126-135) with `k` iterations left, about to run
with loop variable `path`. -/
def simulate_paths_rows (m : Libm α) (norm : G → α × G) (S0 drift diffusion : α)
    (n_steps : Int) : Nat → Nat → G → List (List α) → List (List α) × G
  | 0, _, rng, paths => (paths, rng)
  | k + 1, path, rng, paths =>
    let row := (paths.getD path []).set 0 S0
    let S := S0
    let res := simulate_paths_steps m norm drift diffusion n_steps.toNat 1 rng S row
    simulate_paths_rows m norm S0 drift diffusion n_steps k (path + 1) res.2
      (paths.set path res.1)

/-- Simulate GBM paths (lines 114-138). The matrix starts as `n_paths` rows of `n_steps + 1`
zeros. The sum `n_steps + 1` is taken in the integers (its overflow at the largest `int` is
undefined behaviour in C++), and the model is meant for `n_steps ≥ 0` and `n_paths ≥ 0`
(a negative size makes the vector constructor throw). -/
def simulate_paths (m : Libm α) (norm : G → α × G) (S0 mu sigma T : α)
    (n_steps n_paths : Int) (rng : G) : List (List α) × G :=
  let dt := T / (n_steps : α)
  let drift := (mu - 0.5 * sigma * sigma) * dt
  let diffusion := sigma * m.sqrt dt
  let paths : List (List α) :=
    List.replicate n_paths.toNat (List.replicate (n_steps + 1).toNat 0)
  simulate_paths_rows m norm S0 drift diffusion n_steps n_paths.toNat 0 rng paths

/-! ### Reference definitions, written from the wording of the specification

The definitions below are not translations of code: they say, in the words of the
specification, what the Monte Carlo methods are meant to compute, and the theorems compare
them with the loops above. -/

/-- Reference: the generator state after `j` draws from `rng`. -/
def rng_after (norm : G → α × G) (rng : G) (j : Nat) : G :=
  (fun g => (norm g).2)^[j] rng

/-- Reference: the draw number `j + 1` from `rng` (so `draw_at norm rng 0` is the next draw). -/
def draw_at (norm : G → α × G) (rng : G) (j : Nat) : α :=
  (norm (rng_after norm rng j)).1

/-- Reference: the price after `k` exact GBM steps of a path that starts at price `S0` with
the generator in state `rng`: `S_0 = S0` and
`S_k = S_{k-1} * exp(drift + diffusion * z_k)`, `z_k` being the `k`-th draw from `rng`. -/
def path_price (m : Libm α) (norm : G → α × G) (drift diffusion S0 : α) (rng : G) : Nat → α
  | 0 => S0
  | k + 1 =>
    path_price m norm drift diffusion S0 rng k
      * m.exp (drift + diffusion * draw_at norm rng k)

/-- Reference: the knock-out condition on a price `S`: `S ≤ B` for a down-and-out barrier,
`S ≥ B` for an up-and-out barrier. -/
def barrier_breached (B : α) (is_down_and_out : Bool) (S : α) : Bool :=
  (is_down_and_out && decide (S ≤ B)) || (!is_down_and_out && decide (S ≥ B))

/-- Reference: `some j` when step `j + 1` is the first of the steps `1, ..., n_steps` at
which the path starting in state `rng` breaches the barrier, `none` when it breaches it at
none of them. -/
def knock_out_step (m : Libm α) (norm : G → α × G) (S0 B drift diffusion : α)
    (is_down_and_out : Bool) (n_steps : Nat) (rng : G) : Option Nat :=
  (List.range n_steps).find? fun j =>
    barrier_breached B is_down_and_out (path_price m norm drift diffusion S0 rng (j + 1))

/-- Reference: the contribution of the path starting in state `rng` to a barrier price: zero
when it is knocked out at some step, the vanilla payoff on its terminal price otherwise. -/
def barrier_contribution (m : Libm α) (norm : G → α × G) (S0 K B drift diffusion : α)
    (is_call is_down_and_out : Bool) (n_steps : Nat) (rng : G) : α :=
  match knock_out_step m norm S0 B drift diffusion is_down_and_out n_steps rng with
  | some _ => 0
  | none => vanilla_payoff is_call K (path_price m norm drift diffusion S0 rng n_steps)

/-- Reference: the number of draws a barrier path starting in state `rng` consumes: up to
and including its first breach, or all `n_steps` when it survives. -/
def barrier_draws (m : Libm α) (norm : G → α × G) (S0 B drift diffusion : α)
    (is_down_and_out : Bool) (n_steps : Nat) (rng : G) : Nat :=
  match knock_out_step m norm S0 B drift diffusion is_down_and_out n_steps rng with
  | some j => j + 1
  | none => n_steps

/-- Reference: the generator state in which path number `p` (from 0) of a barrier pricing
started in state `rng` begins: each path begins where the one before it stopped drawing. -/
def barrier_path_start (m : Libm α) (norm : G → α × G) (S0 B drift diffusion : α)
    (is_down_and_out : Bool) (n_steps : Nat) (rng : G) (p : Nat) : G :=
  (fun g => rng_after norm g
    (barrier_draws m norm S0 B drift diffusion is_down_and_out n_steps g))^[p] rng

/-- Reference: the arithmetic average `(S_1 + ... + S_n) / n_steps` of the post-initial
prices of the path starting in state `rng`. -/
def asian_average (m : Libm α) (norm : G → α × G) (S0 drift diffusion : α) (n_steps : Int)
    (rng : G) : α :=
  (∑ j in Finset.range n_steps.toNat, path_price m norm drift diffusion S0 rng (j + 1))
    / (n_steps : α)

end MonteCarloEngine

namespace BlackScholesEngine

variable {α : Type} [LinearOrderedField α]

/-- The successive values of the variable `sigma` of `implied_volatility` (lines 100-116)
with `fuel = max_iterations - i` iterations left: the value it has when the loop is entered,
followed by the value it has after each update `sigma += diff / vega_val` and its clamping
(lines 114-115), up to the value with which the loop is left. -/
def implied_volatility_sigmas (m : Libm α) (option_price S K T r : α) (is_call : Bool) :
    Nat → α → List α
  | 0, sigma => [sigma]
  | fuel + 1, sigma =>
    let price := if is_call then call_price m S K T r sigma else put_price m S K T r sigma
    let vega_val := vega m S K T r sigma
    if |vega_val| < 1e-10 then [sigma]
    else
      let diff := option_price - price
      if |diff| < 1e-6 then [sigma]
      else
        let sigma' := sigma + diff / vega_val
        let sigma' := max 0.001 (min sigma' 5.0)
        sigma :: implied_volatility_sigmas m option_price S K T r is_call fuel sigma'

end BlackScholesEngine

namespace MonteCarloEngine

variable {α : Type} [LinearOrderedField α] {G : Type}

/-- Reference: the payoff that one antithetic pair adds to `sum_payoffs` in `price_european`
for the draw `z`: the mean of the payoffs on the terminal prices for `z` and for `-z`. -/
def antithetic_pair_payoff (m : Libm α) (S0 K drift diffusion : α) (is_call : Bool)
    (z : α) : α :=
  (vanilla_payoff is_call K (S0 * m.exp (drift + diffusion * z))
    + vanilla_payoff is_call K (S0 * m.exp (drift - diffusion * z))) / 2

/-- Reference: the generator `norm` with the sign of every draw flipped. -/
def negated (norm : G → α × G) : G → α × G :=
  fun g => (-(norm g).1, (norm g).2)

end MonteCarloEngine

namespace BlackScholesEngine

variable {α : Type} [LinearOrderedField α]

/-- Away from zero the approximation is exactly symmetric:
`norm_cdf x + norm_cdf (-x) = 1`. -/
theorem norm_cdf_add_neg (m : Libm α) (x : α) (hx : x ≠ 0) :
    norm_cdf m x + norm_cdf m (-x) = 1 := by
  rcases lt_or_gt_of_ne hx with h | h
  · have h2 : ¬ (-x < 0) := by simp [le_of_lt h]
    simp only [norm_cdf, h, h2, if_true, if_false, abs_neg]
    ring
  · have h1 : ¬ (x < 0) := not_lt.mpr (le_of_lt h)
    have h2 : -x < 0 := by simpa using h
    simp only [norm_cdf, h1, h2, if_true, if_false, abs_neg]
    ring

/-- At zero both `norm_cdf 0` and `norm_cdf (-0)` take the branch `sign = 1`, and the five
coefficients sum to `0.999999999`, not to `1`. -/
theorem norm_cdf_zero (m : Libm α) (hexp : m.exp 0 = 1) :
    norm_cdf m 0 = 0.5 * (1 + 0.000000001) := by
  simp only [norm_cdf, lt_irrefl, if_false, abs_zero, zero_div, mul_zero, add_zero, neg_zero,
    hexp]
  norm_num

/-- The parity defect of the two prices, in terms of the defects of `norm_cdf` at `d1`, `d2`. -/
theorem call_sub_put (m : Libm α) (S K T r sigma : α) :
    call_price m S K T r sigma - put_price m S K T r sigma - (S - K * m.exp (-r * T))
      = S * (norm_cdf m (d1 m S K T r sigma) + norm_cdf m (-d1 m S K T r sigma) - 1)
        - K * m.exp (-r * T)
          * (norm_cdf m (d2 m S K T r sigma) + norm_cdf m (-d2 m S K T r sigma) - 1) := by
  simp only [call_price, put_price]
  ring

/-- With the real functions the two values of `norm_cdf` at `x` and `-x` add up to 1, or to
`1.000000001` when `x = 0`. -/
theorem norm_cdf_real_defect (x : ℝ) :
    norm_cdf realLibm x + norm_cdf realLibm (-x) - 1 = 0
    ∨ norm_cdf realLibm x + norm_cdf realLibm (-x) - 1 = 0.000000001 := by
  by_cases hx : x = 0
  · right
    subst hx
    rw [neg_zero, norm_cdf_zero realLibm (by simp [realLibm])]
    norm_num
  · left
    rw [norm_cdf_add_neg realLibm x hx]
    norm_num

/-- C1 (as amended): put-call parity with a relative tolerance. For every S > 0, K > 0,
T > 0, sigma > 0 and every r, with the real `exp`, `log`, `sqrt`,
`|(call_price - put_price) - (S - K * exp(-r*T))| < 1e-9 * (S + K * exp(-r*T))`; the inputs
at which `d1` or `d2` is exactly 0 are included. -/
theorem put_call_parity_relative (S K T r sigma : ℝ) (hS : 0 < S) (hK : 0 < K) (hT : 0 < T)
    (hsigma : 0 < sigma) :
    |call_price realLibm S K T r sigma - put_price realLibm S K T r sigma
        - (S - K * Real.exp (-r * T))|
      < 0.000000001 * (S + K * Real.exp (-r * T)) := by
  have _hT : 0 < T := hT
  have _hsigma : 0 < sigma := hsigma
  have hE : 0 < K * Real.exp (-r * T) := mul_pos hK (Real.exp_pos _)
  have e : realLibm.exp (-r * T) = Real.exp (-r * T) := rfl
  have hgap := call_sub_put realLibm S K T r sigma
  rw [e] at hgap
  rw [hgap, abs_lt]
  rcases norm_cdf_real_defect (d1 realLibm S K T r sigma) with h1 | h1 <;>
    rcases norm_cdf_real_defect (d2 realLibm S K T r sigma) with h2 | h2 <;>
    rw [h1, h2] <;> constructor <;> nlinarith

/-- Witness for C1 (as amended): S = K = 100, T = 1, r = -0.125, sigma = 0.5, the contract
with `d1 = 0` at which the absolute tolerance fails. -/
theorem put_call_parity_relative_witness :
    |call_price realLibm 100 100 1 (-0.125) 0.5 - put_price realLibm 100 100 1 (-0.125) 0.5
        - (100 - 100 * Real.exp (-(-0.125) * 1))|
      < 0.000000001 * (100 + 100 * Real.exp (-(-0.125) * 1)) :=
  put_call_parity_relative 100 100 1 (-0.125) 0.5 (by norm_num) (by norm_num) (by norm_num)
    (by norm_num)

/-- C1 (counterexample): S = K = 100, T = 1, r = -0.125, sigma = 0.5 is a valid contract with
`d1 = 0`; there `call_price - put_price` misses `S - K * exp(-r*T)` by exactly `1e-7`,
which is not below `1e-9`. -/
theorem put_call_parity_fails_at_d1_zero :
    (0 : ℝ) < 100 ∧ (0 : ℝ) < 1 ∧ (0 : ℝ) < 0.5 ∧
    d1 realLibm 100 100 1 (-0.125) 0.5 = 0 ∧
    call_price realLibm 100 100 1 (-0.125) 0.5 - put_price realLibm 100 100 1 (-0.125) 0.5
        - (100 - 100 * realLibm.exp (-(-0.125) * 1)) = 0.0000001 ∧
    ¬ |call_price realLibm 100 100 1 (-0.125) 0.5 - put_price realLibm 100 100 1 (-0.125) 0.5
        - (100 - 100 * realLibm.exp (-(-0.125) * 1))| < 0.000000001 := by
  have e1 : d1 realLibm 100 100 1 (-0.125) 0.5 = 0 := by
    simp [d1, realLibm]; norm_num
  have e2 : d2 realLibm 100 100 1 (-0.125) 0.5 = -0.5 := by
    rw [d2, e1]; simp [realLibm]
  have hz : norm_cdf realLibm 0 = 0.5 * (1 + 0.000000001) :=
    norm_cdf_zero realLibm (by simp [realLibm])
  have hd : call_price realLibm 100 100 1 (-0.125) 0.5
      - put_price realLibm 100 100 1 (-0.125) 0.5
      - (100 - 100 * realLibm.exp (-(-0.125) * 1)) = 0.0000001 := by
    rw [call_sub_put, e1, e2, neg_zero, hz, norm_cdf_add_neg realLibm (-0.5) (by norm_num)]
    norm_num
  refine ⟨by norm_num, by norm_num, by norm_num, e1, hd, ?_⟩
  rw [hd, abs_of_pos (by norm_num)]
  norm_num

end BlackScholesEngine

namespace BlackScholesEngine

variable {α : Type} [LinearOrderedField α]

/-- When the six reads at index `i` succeed, the entry is the call or put price of the
contract read. -/
theorem portfolio_entry_of_reads (m : Libm α) (S_vec K_vec T_vec r_vec sigma_vec : List α)
    (is_call_vec : List Bool) (i : Nat) (s k t r sg : α) (c : Bool)
    (hS : S_vec[i]? = some s) (hK : K_vec[i]? = some k) (hT : T_vec[i]? = some t)
    (hr : r_vec[i]? = some r) (hsg : sigma_vec[i]? = some sg) (hc : is_call_vec[i]? = some c) :
    portfolio_entry m S_vec K_vec T_vec r_vec sigma_vec is_call_vec i
      = some (if c then call_price m s k t r sg else put_price m s k t r sg) := by
  simp [portfolio_entry, hS, hK, hT, hr, hsg, hc]

/-- Below the length of every vector, all six reads succeed. -/
theorem portfolio_entry_isSome (m : Libm α) (S_vec K_vec T_vec r_vec sigma_vec : List α)
    (is_call_vec : List Bool) (i : Nat)
    (hS : i < S_vec.length) (hK : i < K_vec.length) (hT : i < T_vec.length)
    (hr : i < r_vec.length) (hsg : i < sigma_vec.length) (hc : i < is_call_vec.length) :
    ∃ v, portfolio_entry m S_vec K_vec T_vec r_vec sigma_vec is_call_vec i = some v :=
  ⟨_, portfolio_entry_of_reads m S_vec K_vec T_vec r_vec sigma_vec is_call_vec i _ _ _ _ _ _
    (List.getElem?_eq_getElem hS) (List.getElem?_eq_getElem hK) (List.getElem?_eq_getElem hT)
    (List.getElem?_eq_getElem hr) (List.getElem?_eq_getElem hsg) (List.getElem?_eq_getElem hc)⟩

/-- Loop invariant of `price_portfolio`: after the iterations `0, ..., j-1` the vector
`prices` still has its `n` entries and the first `j` of them hold their prices. -/
theorem price_portfolio_invariant (m : Libm α) (S_vec K_vec T_vec r_vec sigma_vec : List α)
    (is_call_vec : List Bool)
    (hK : S_vec.length ≤ K_vec.length) (hT : S_vec.length ≤ T_vec.length)
    (hr : S_vec.length ≤ r_vec.length) (hsg : S_vec.length ≤ sigma_vec.length)
    (hc : S_vec.length ≤ is_call_vec.length) (j : Nat) (hj : j ≤ S_vec.length) :
    ∃ prices : List α,
      (List.range j).foldlM
        (fun prices i => do
          let v ← portfolio_entry m S_vec K_vec T_vec r_vec sigma_vec is_call_vec i
          pure (prices.set i v))
        (List.replicate S_vec.length (0 : α)) = some prices
      ∧ prices.length = S_vec.length
      ∧ ∀ i, i < j →
          prices[i]? = portfolio_entry m S_vec K_vec T_vec r_vec sigma_vec is_call_vec i := by
  induction j with
  | zero => exact ⟨_, rfl, by simp, fun i hi => absurd hi (Nat.not_lt_zero i)⟩
  | succ j ih =>
    obtain ⟨prices, hfold, hlen, hent⟩ := ih (Nat.le_of_succ_le hj)
    have hjn : j < S_vec.length := hj
    obtain ⟨v, hv⟩ := portfolio_entry_isSome m S_vec K_vec T_vec r_vec sigma_vec is_call_vec j
      hjn (by omega) (by omega) (by omega) (by omega) (by omega)
    refine ⟨prices.set j v, ?_, by simp [hlen], ?_⟩
    · rw [List.range_succ, List.foldlM_append, hfold]
      simp [hv]
    · intro i hi
      rcases Nat.lt_succ_iff_lt_or_eq.mp hi with h | h
      · rw [List.getElem?_set_ne (by omega), hent i h]
      · subst h
        rw [List.getElem?_set_self (by omega), hv]

/-- What `price_portfolio` returns whenever no other vector is shorter than `S_vec`. -/
theorem price_portfolio_of_le (m : Libm α) (S_vec K_vec T_vec r_vec sigma_vec : List α)
    (is_call_vec : List Bool)
    (hK : S_vec.length ≤ K_vec.length) (hT : S_vec.length ≤ T_vec.length)
    (hr : S_vec.length ≤ r_vec.length) (hsg : S_vec.length ≤ sigma_vec.length)
    (hc : S_vec.length ≤ is_call_vec.length) :
    ∃ prices : List α,
      price_portfolio m S_vec K_vec T_vec r_vec sigma_vec is_call_vec = some prices
      ∧ prices.length = S_vec.length
      ∧ ∀ (i : Nat) (s k t r sg : α) (c : Bool),
          S_vec[i]? = some s → K_vec[i]? = some k → T_vec[i]? = some t →
          r_vec[i]? = some r → sigma_vec[i]? = some sg → is_call_vec[i]? = some c →
          prices[i]? = some (if c then call_price m s k t r sg else put_price m s k t r sg) := by
  obtain ⟨prices, hfold, hlen, hent⟩ := price_portfolio_invariant m S_vec K_vec T_vec r_vec
    sigma_vec is_call_vec hK hT hr hsg hc S_vec.length (Nat.le_refl _)
  refine ⟨prices, hfold, hlen, ?_⟩
  intro i s k t r sg c hS hK' hT' hr' hsg' hc'
  have hi : i < S_vec.length := by
    rcases List.getElem?_eq_some_iff.mp hS with ⟨h, _⟩
    exact h
  rw [hent i hi]
  exact portfolio_entry_of_reads m S_vec K_vec T_vec r_vec sigma_vec is_call_vec i s k t r sg c
    hS hK' hT' hr' hsg' hc'

/-- C2 (counterexample): with `S` of length 1 and the five other vectors of length 2, the
lengths are not all equal, yet `price_portfolio` returns a price array: the one-element
array holding the call price of the first contract. -/
theorem price_portfolio_mismatch_returns :
    ([100] : List ℝ).length ≠ ([100, 110] : List ℝ).length ∧
    price_portfolio realLibm [100] [100, 110] [1, 1] [0.05, 0.05] [0.2, 0.2] [true, false]
      = some [call_price realLibm 100 100 1 0.05 0.2] := by
  refine ⟨by simp, ?_⟩
  simp [price_portfolio, portfolio_entry, List.range_succ]

/-- C2 (as amended): `price_portfolio` makes no length check. Whenever none of `K`, `T`,
`r`, `sigma`, `is_call` is shorter than `S`, it returns an array of the length of `S` whose
entry `i` is the call or put price of the `i`-th entries of the inputs; entries of the other
vectors beyond the length of `S` are ignored. -/
theorem price_portfolio_no_length_check (m : Libm α)
    (S_vec K_vec T_vec r_vec sigma_vec : List α) (is_call_vec : List Bool)
    (hK : S_vec.length ≤ K_vec.length) (hT : S_vec.length ≤ T_vec.length)
    (hr : S_vec.length ≤ r_vec.length) (hsg : S_vec.length ≤ sigma_vec.length)
    (hc : S_vec.length ≤ is_call_vec.length) :
    ∃ prices : List α,
      price_portfolio m S_vec K_vec T_vec r_vec sigma_vec is_call_vec = some prices
      ∧ prices.length = S_vec.length
      ∧ ∀ (i : Nat) (s k t r sg : α) (c : Bool),
          S_vec[i]? = some s → K_vec[i]? = some k → T_vec[i]? = some t →
          r_vec[i]? = some r → sigma_vec[i]? = some sg → is_call_vec[i]? = some c →
          prices[i]? = some (if c then call_price m s k t r sg else put_price m s k t r sg) :=
  price_portfolio_of_le m S_vec K_vec T_vec r_vec sigma_vec is_call_vec hK hT hr hsg hc

/-- Witness for C2 (as amended): `S` of length 1 against five vectors of length 2. -/
theorem price_portfolio_no_length_check_witness :
    ([100] : List ℝ).length ≤ ([100, 110] : List ℝ).length ∧
    ∃ prices : List ℝ,
      price_portfolio realLibm [100] [100, 110] [1, 1] [0.05, 0.05] [0.2, 0.2] [true, false]
        = some prices
      ∧ prices.length = 1
      ∧ prices[0]? = some (call_price realLibm 100 100 1 0.05 0.2) := by
  refine ⟨by simp, ?_⟩
  obtain ⟨prices, h, hlen, hent⟩ := price_portfolio_no_length_check realLibm
    [100] [100, 110] [1, 1] [0.05, 0.05] [0.2, 0.2] [true, false]
    (by simp) (by simp) (by simp) (by simp) (by simp)
  refine ⟨prices, h, by simpa using hlen, ?_⟩
  simpa using hent 0 100 100 1 0.05 0.2 true rfl rfl rfl rfl rfl rfl

/-- C3: for six input arrays of one common length `n`, `price_portfolio` returns an array of
length exactly `n` whose entry `i` is `call_price(S[i],K[i],T[i],r[i],sigma[i])` when
`is_call[i]` is true and `put_price(S[i],K[i],T[i],r[i],sigma[i])` otherwise. -/
theorem price_portfolio_elementwise (m : Libm α)
    (S_vec K_vec T_vec r_vec sigma_vec : List α) (is_call_vec : List Bool) (n : Nat)
    (hS : S_vec.length = n) (hK : K_vec.length = n) (hT : T_vec.length = n)
    (hr : r_vec.length = n) (hsg : sigma_vec.length = n) (hc : is_call_vec.length = n) :
    ∃ prices : List α,
      price_portfolio m S_vec K_vec T_vec r_vec sigma_vec is_call_vec = some prices
      ∧ prices.length = n
      ∧ ∀ (i : Nat) (s k t r sg : α) (c : Bool),
          S_vec[i]? = some s → K_vec[i]? = some k → T_vec[i]? = some t →
          r_vec[i]? = some r → sigma_vec[i]? = some sg → is_call_vec[i]? = some c →
          prices[i]? = some (if c then call_price m s k t r sg else put_price m s k t r sg) := by
  obtain ⟨prices, h, hlen, hent⟩ := price_portfolio_of_le m S_vec K_vec T_vec r_vec sigma_vec
    is_call_vec (by omega) (by omega) (by omega) (by omega) (by omega)
  exact ⟨prices, h, by omega, hent⟩

/-- Witness for C3: two contracts, a call and a put. -/
theorem price_portfolio_elementwise_witness :
    ∃ prices : List ℝ,
      price_portfolio realLibm [100, 90] [100, 110] [1, 2] [0.05, 0.01] [0.2, 0.3] [true, false]
        = some prices
      ∧ prices.length = 2
      ∧ prices[0]? = some (call_price realLibm 100 100 1 0.05 0.2)
      ∧ prices[1]? = some (put_price realLibm 90 110 2 0.01 0.3) := by
  obtain ⟨prices, h, hlen, hent⟩ := price_portfolio_elementwise realLibm
    [100, 90] [100, 110] [1, 2] [0.05, 0.01] [0.2, 0.3] [true, false] 2 rfl rfl rfl rfl rfl rfl
  refine ⟨prices, h, hlen, ?_, ?_⟩
  · simpa using hent 0 100 100 1 0.05 0.2 true rfl rfl rfl rfl rfl rfl
  · simpa using hent 1 90 110 2 0.01 0.3 false rfl rfl rfl rfl rfl rfl

end BlackScholesEngine

namespace BlackScholesEngine

variable {α : Type} [LinearOrderedField α]

/-- With no iteration left the loop is left through its condition. -/
theorem implied_volatility_search_zero (m : Libm α) (option_price S K T r : α)
    (is_call : Bool) (sigma : α) :
    implied_volatility_search m option_price S K T r is_call 0 sigma
      = (Exit.exhausted, sigma) := rfl

/-- A degenerate vega at the current `sigma` ends the search there, whatever the target. -/
theorem implied_volatility_search_of_degenerate (m : Libm α) (option_price S K T r : α)
    (is_call : Bool) (fuel : Nat) (sigma : α) (h : |vega m S K T r sigma| < 1e-10) :
    implied_volatility_search m option_price S K T r is_call (fuel + 1) sigma
      = (Exit.degenerate, sigma) := by
  simp only [implied_volatility_search, h, if_true]

/-- A non-degenerate vega and a price within the tolerance end the search at the current
`sigma` through the tolerance test. -/
theorem implied_volatility_search_of_converged (m : Libm α) (option_price S K T r : α)
    (is_call : Bool) (fuel : Nat) (sigma : α) (hv : ¬ |vega m S K T r sigma| < 1e-10)
    (hd : |option_price - (if is_call then call_price m S K T r sigma
        else put_price m S K T r sigma)| < 1e-6) :
    implied_volatility_search m option_price S K T r is_call (fuel + 1) sigma
      = (Exit.converged, sigma) := by
  simp only [implied_volatility_search, hv, hd, if_true, if_false]

/-- What each way of leaving the loop tells about the `sigma` it leaves with. -/
theorem implied_volatility_search_exit (m : Libm α) (option_price S K T r : α)
    (is_call : Bool) (fuel : Nat) (sigma : α) :
    ((implied_volatility_search m option_price S K T r is_call fuel sigma).1 = Exit.converged →
      |option_price - (if is_call
          then call_price m S K T r
            (implied_volatility_search m option_price S K T r is_call fuel sigma).2
          else put_price m S K T r
            (implied_volatility_search m option_price S K T r is_call fuel sigma).2)| < 1e-6
      ∧ ¬ |vega m S K T r
            (implied_volatility_search m option_price S K T r is_call fuel sigma).2| < 1e-10)
    ∧ ((implied_volatility_search m option_price S K T r is_call fuel sigma).1
          = Exit.degenerate →
        |vega m S K T r
            (implied_volatility_search m option_price S K T r is_call fuel sigma).2| < 1e-10)
    ∧ ((implied_volatility_search m option_price S K T r is_call fuel sigma).1
          = Exit.exhausted →
        (fuel = 0 ∧
          (implied_volatility_search m option_price S K T r is_call fuel sigma).2 = sigma)
        ∨ (0.001 ≤ (implied_volatility_search m option_price S K T r is_call fuel sigma).2
          ∧ (implied_volatility_search m option_price S K T r is_call fuel sigma).2 ≤ 5)) := by
  induction fuel generalizing sigma with
  | zero => simp [implied_volatility_search]
  | succ fuel ih =>
    by_cases hv : |vega m S K T r sigma| < 1e-10
    · rw [implied_volatility_search_of_degenerate m option_price S K T r is_call fuel sigma hv]
      simp [hv]
    · by_cases hd : |option_price - (if is_call then call_price m S K T r sigma
          else put_price m S K T r sigma)| < 1e-6
      · have e : implied_volatility_search m option_price S K T r is_call (fuel + 1) sigma
            = (Exit.converged, sigma) := by
          simp only [implied_volatility_search, hv, hd, if_true, if_false]
        rw [e]
        simp [hv, hd]
      · have e : implied_volatility_search m option_price S K T r is_call (fuel + 1) sigma
            = implied_volatility_search m option_price S K T r is_call fuel
                (max 0.001 (min (sigma + (option_price - (if is_call
                  then call_price m S K T r sigma else put_price m S K T r sigma))
                    / vega m S K T r sigma) 5.0)) := by
          simp only [implied_volatility_search, hv, hd, if_false]
        rw [e]
        obtain ⟨h1, h2, h3⟩ := ih (max 0.001 (min (sigma + (option_price - (if is_call
                  then call_price m S K T r sigma else put_price m S K T r sigma))
                    / vega m S K T r sigma) 5.0))
        refine ⟨h1, h2, fun hx => Or.inr ?_⟩
        rcases h3 hx with ⟨_, hs⟩ | hb
        · rw [hs]
          refine ⟨le_max_left _ _, max_le (by norm_num) ?_⟩
          exact le_trans (min_le_right _ _) (by norm_num)
        · exact hb

end BlackScholesEngine

namespace BlackScholesEngine

/-- The degree-four polynomial of `norm_cdf` is positive everywhere. -/
theorem norm_cdf_poly_pos (t : ℝ) :
    0 < ((((1.061405429 * t + -1.453152027) * t) + 1.421413741) * t + -0.284496736) * t
          + 0.254829592 := by
  nlinarith [sq_nonneg (t * t - 0.68 * t), sq_nonneg (t - 0.15), sq_nonneg t,
    sq_nonneg (t * t)]

/-- The degree-four polynomial of `norm_cdf` stays below 2 on the interval `(0, 1]`. -/
theorem norm_cdf_poly_lt_two (t : ℝ) (h0 : 0 < t) (h1 : t ≤ 1) :
    ((((1.061405429 * t + -1.453152027) * t) + 1.421413741) * t + -0.284496736) * t
          + 0.254829592 < 2 := by
  have h2 : t * t ≤ 1 := by nlinarith
  have h3 : 0 ≤ t * t * t := by positivity
  have h4 : t * t * t * t ≤ 1 := by nlinarith [mul_nonneg h0.le h0.le]
  nlinarith

/-- With the real `exp` and `sqrt`, the approximation `norm_cdf` takes its values strictly
between 0 and 1. -/
theorem norm_cdf_real_bounds (x : ℝ) :
    0 < norm_cdf realLibm x ∧ norm_cdf realLibm x < 1 := by
  simp only [norm_cdf, realLibm]
  have hu : 0 ≤ |x| / Real.sqrt 2 := div_nonneg (abs_nonneg x) (Real.sqrt_nonneg 2)
  generalize |x| / Real.sqrt 2 = u at hu ⊢
  have hden : 1 ≤ 1 + 0.3275911 * u := by nlinarith
  have ht0 : 0 < 1 / (1 + 0.3275911 * u) := by positivity
  have ht1 : 1 / (1 + 0.3275911 * u) ≤ 1 := by
    rw [div_le_one (by linarith)]
    exact hden
  generalize 1 / (1 + 0.3275911 * u) = t at ht0 ht1 ⊢
  have hE0 : 0 < Real.exp (-u * u) := Real.exp_pos _
  have hE1 : Real.exp (-u * u) ≤ 1 := by
    rw [Real.exp_le_one_iff]
    nlinarith
  generalize Real.exp (-u * u) = E at hE0 hE1 ⊢
  have hq0 := norm_cdf_poly_pos t
  have hq2 := norm_cdf_poly_lt_two t ht0 ht1
  generalize ((((1.061405429 * t + -1.453152027) * t) + 1.421413741) * t + -0.284496736) * t
          + 0.254829592 = q at hq0 hq2 ⊢
  have hw0 : 0 < q * t * E := by positivity
  have hw2 : q * t * E < 2 := by
    have h1 : q * t ≤ q := by nlinarith
    have h2 : q * t * E ≤ q * t := by nlinarith [mul_pos hq0 ht0]
    linarith
  generalize q * t * E = w at hw0 hw2 ⊢
  by_cases hx : x < 0
  · simp only [hx, if_true]
    constructor <;> linarith
  · simp only [hx, if_false]
    constructor <;> linarith

end BlackScholesEngine

namespace BlackScholesEngine

/-- With the real functions, `norm_pdf x` is positive and at most `exp (-x^2/2)`. -/
theorem norm_pdf_real_le (x : ℝ) :
    0 < norm_pdf realLibm x ∧ norm_pdf realLibm x ≤ Real.exp (-0.5 * x * x) := by
  simp only [norm_pdf, realLibm]
  have hpi : (1 : ℝ) ≤ 2 * Real.pi := by linarith [Real.pi_gt_three]
  have hs : 1 ≤ Real.sqrt (2 * Real.pi) := by
    rw [Real.one_le_sqrt]
    exact hpi
  have hE : 0 < Real.exp (-0.5 * x * x) := Real.exp_pos _
  have h1 : 1 / Real.sqrt (2 * Real.pi) ≤ 1 := by
    rw [div_le_one (by linarith)]
    exact hs
  have h0 : 0 < 1 / Real.sqrt (2 * Real.pi) := by positivity
  constructor
  · positivity
  · nlinarith

/-- The real `exp` at `-51` is below `1e-15`. -/
theorem exp_neg_51_lt : Real.exp (-51) < 1e-15 := by
  have h2 : (2 : ℝ) ≤ Real.exp 1 := by linarith [Real.add_one_le_exp 1]
  have hhalf : Real.exp (-1) ≤ 1 / 2 := by
    rw [Real.exp_neg, inv_eq_one_div, div_le_div_iff₀ (Real.exp_pos 1) (by norm_num)]
    linarith
  have hpow : Real.exp (-51) = Real.exp (-1) ^ 51 := by
    rw [← Real.exp_nat_mul]
    norm_num
  rw [hpow]
  calc Real.exp (-1) ^ 51 ≤ (1 / 2) ^ 51 :=
        pow_le_pow_left₀ (Real.exp_pos _).le hhalf 51
    _ < 1e-15 := by norm_num

/-- At S = K = 100, T = 1, r = 3 and sigma = 0.3, `d1` is `10.15`. -/
theorem d1_at_rate_three : d1 realLibm 100 100 1 3 0.3 = 10.15 := by
  simp [d1, realLibm]
  norm_num

/-- At S = K = 100, T = 1, r = 3 the vega at sigma = 0.3 is degenerate. -/
theorem vega_degenerate_at_rate_three : |vega realLibm 100 100 1 3 0.3| < 1e-10 := by
  have hp := norm_pdf_real_le (10.15 : ℝ)
  have he : Real.exp (-0.5 * 10.15 * 10.15) ≤ Real.exp (-51) := by
    apply Real.exp_le_exp.mpr
    norm_num
  have h51 := exp_neg_51_lt
  have hv : vega realLibm 100 100 1 3 0.3 = 100 * norm_pdf realLibm 10.15 := by
    simp only [vega, d1_at_rate_three]
    simp [realLibm]
  rw [hv, abs_of_pos (by linarith [hp.1])]
  have : norm_pdf realLibm 10.15 < 1e-15 := lt_of_le_of_lt (le_trans hp.2 he) h51
  norm_num at this ⊢
  linarith

end BlackScholesEngine

namespace BlackScholesEngine

variable {α : Type} [LinearOrderedField α]

/-- With the real functions and S, K > 0, the call price lies strictly between
`-K * exp(-r*T)` and `S`. -/
theorem call_price_real_bounds (S K T r sigma : ℝ) (hS : 0 < S) (hK : 0 < K) :
    -(K * Real.exp (-r * T)) < call_price realLibm S K T r sigma
      ∧ call_price realLibm S K T r sigma < S := by
  have h1 := norm_cdf_real_bounds (d1 realLibm S K T r sigma)
  have h2 := norm_cdf_real_bounds (d2 realLibm S K T r sigma)
  have hE : 0 < K * Real.exp (-r * T) := mul_pos hK (Real.exp_pos _)
  simp only [call_price]
  have e : realLibm.exp (-r * T) = Real.exp (-r * T) := rfl
  rw [e]
  constructor
  · nlinarith [mul_pos hS h1.1]
  · nlinarith [mul_pos hE h2.1]

/-- C5 (counterexample): target price 150 for a call with S = K = 100, T = 1, r = 3. The vega
at the initial guess is below 1e-10, the search stops there, and the caller receives the
plain number 0.3 although the model price at 0.3 is below 100, more than 50 away from the
target. -/
theorem implied_volatility_returns_unconverged :
    implied_volatility realLibm 150 100 100 1 3 true initial_guess_default = 0.3 ∧
    ¬ |150 - call_price realLibm 100 100 1 3
        (implied_volatility realLibm 150 100 100 1 3 true initial_guess_default)| < 1e-6 := by
  have h : implied_volatility realLibm 150 100 100 1 3 true initial_guess_default = 0.3 := by
    simp only [implied_volatility, initial_guess_default]
    rw [implied_volatility_search_of_degenerate realLibm _ 100 100 1 3 true 99 0.3
      vega_degenerate_at_rate_three]
  refine ⟨h, ?_⟩
  rw [h]
  have hb := (call_price_real_bounds 100 100 1 3 0.3 (by norm_num) (by norm_num)).2
  rw [abs_of_pos (by linarith)]
  norm_num
  linarith

/-- C5 (as amended): `implied_volatility` hands back the bare `sigma` with which the loop is
left, whichever way it is left. That `sigma` has a model price within 1e-6 of the target when
the loop is left by the tolerance test, a vega below 1e-10 in absolute value when it is left
by `break`, and lies in [0.001, 5] when the 100 iterations are used up. -/
theorem implied_volatility_exit_cases (m : Libm α) (option_price S K T r : α)
    (is_call : Bool) (initial_guess : α) :
    implied_volatility m option_price S K T r is_call initial_guess
      = (implied_volatility_search m option_price S K T r is_call 100 initial_guess).2
    ∧ ((implied_volatility_search m option_price S K T r is_call 100 initial_guess).1
          = Exit.converged →
        |option_price - (if is_call
            then call_price m S K T r
              (implied_volatility m option_price S K T r is_call initial_guess)
            else put_price m S K T r
              (implied_volatility m option_price S K T r is_call initial_guess))| < 1e-6)
    ∧ ((implied_volatility_search m option_price S K T r is_call 100 initial_guess).1
          = Exit.degenerate →
        |vega m S K T r (implied_volatility m option_price S K T r is_call initial_guess)|
          < 1e-10)
    ∧ ((implied_volatility_search m option_price S K T r is_call 100 initial_guess).1
          = Exit.exhausted →
        0.001 ≤ implied_volatility m option_price S K T r is_call initial_guess
        ∧ implied_volatility m option_price S K T r is_call initial_guess ≤ 5) := by
  obtain ⟨h1, h2, h3⟩ := implied_volatility_search_exit m option_price S K T r is_call 100
    initial_guess
  refine ⟨rfl, fun h => (h1 h).1, h2, fun h => ?_⟩
  rcases h3 h with ⟨h0, _⟩ | hb
  · exact absurd h0 (by decide)
  · exact hb

/-- C6 (counterexample): sigma = -0.5 is not positive, yet `call_price` and `put_price` at
S = K = 100, T = 1, r = 0 return numbers (with `d1 = -0.25` and `d2 = 0.25`), not an
InvalidArgument outcome. -/
theorem call_price_accepts_invalid_sigma :
    (-0.5 : ℝ) ≤ 0 ∧
    call_price_outcome realLibm 100 100 1 0 (-0.5)
      = Except.ok (100 * norm_cdf realLibm (-0.25) - 100 * norm_cdf realLibm 0.25) ∧
    put_price_outcome realLibm 100 100 1 0 (-0.5)
      = Except.ok (100 * norm_cdf realLibm (-0.25) - 100 * norm_cdf realLibm 0.25) ∧
    call_price_outcome realLibm 100 100 1 0 (-0.5) ≠ Except.error EngineError.invalidArgument ∧
    put_price_outcome realLibm 100 100 1 0 (-0.5) ≠ Except.error EngineError.invalidArgument := by
  have e1 : d1 realLibm 100 100 1 0 (-0.5) = -0.25 := by
    simp [d1, realLibm]
    norm_num
  have e2 : d2 realLibm 100 100 1 0 (-0.5) = 0.25 := by
    rw [d2, e1]
    simp [realLibm]
    norm_num
  have hc : call_price realLibm 100 100 1 0 (-0.5)
      = 100 * norm_cdf realLibm (-0.25) - 100 * norm_cdf realLibm 0.25 := by
    simp only [call_price, e1, e2]
    simp [realLibm]
  have hp : put_price realLibm 100 100 1 0 (-0.5)
      = 100 * norm_cdf realLibm (-0.25) - 100 * norm_cdf realLibm 0.25 := by
    simp only [put_price, e1, e2, neg_neg]
    simp [realLibm]
  refine ⟨by norm_num, ?_, ?_, ?_, ?_⟩
  · rw [call_price_outcome, hc]
  · rw [put_price_outcome, hp]
  · simp [call_price_outcome]
  · simp [put_price_outcome]

/-- C6 (as amended): `call_price` and `put_price` check none of their arguments: for every
S, K, T, r, sigma, positive or not, the caller receives the number given by the closed-form
expression and never an InvalidArgument outcome. -/
theorem price_outcome_is_value (m : Libm α) (S K T r sigma : α) :
    call_price_outcome m S K T r sigma
      = Except.ok (S * norm_cdf m (d1 m S K T r sigma)
          - K * m.exp (-r * T) * norm_cdf m (d2 m S K T r sigma))
    ∧ put_price_outcome m S K T r sigma
      = Except.ok (K * m.exp (-r * T) * norm_cdf m (-d2 m S K T r sigma)
          - S * norm_cdf m (-d1 m S K T r sigma))
    ∧ call_price_outcome m S K T r sigma ≠ Except.error EngineError.invalidArgument
    ∧ put_price_outcome m S K T r sigma ≠ Except.error EngineError.invalidArgument := by
  refine ⟨rfl, rfl, ?_, ?_⟩
  · simp [call_price_outcome]
  · simp [put_price_outcome]

end BlackScholesEngine

namespace MonteCarloEngine

variable {α : Type} [LinearOrderedField α] {G : Type}

/-- The inner loop of `simulate_paths` keeps the length of the row, and writes only at
positions `step, step + 1, ...`, so it keeps entry 0 when started at `step ≥ 1`. -/
theorem simulate_paths_steps_row (m : Libm α) (norm : G → α × G) (drift diffusion : α)
    (k : Nat) (step : Nat) (rng : G) (S : α) (row : List α) (hstep : 1 ≤ step) :
    (simulate_paths_steps m norm drift diffusion k step rng S row).1.length = row.length
    ∧ (simulate_paths_steps m norm drift diffusion k step rng S row).1[0]? = row[0]? := by
  induction k generalizing step rng S row with
  | zero => exact ⟨rfl, rfl⟩
  | succ k ih =>
    simp only [simulate_paths_steps]
    obtain ⟨h1, h2⟩ := ih (step + 1) (norm rng).2
      (S * m.exp (drift + diffusion * (norm rng).1))
      (row.set step (S * m.exp (drift + diffusion * (norm rng).1))) (by omega)
    refine ⟨by rw [h1, List.length_set], ?_⟩
    rw [h2, List.getElem?_set_ne (by omega)]

/-- Loop invariant of the outer loop of `simulate_paths`: the matrix keeps its `N` rows of
length `L`, and the rows already visited start with `S0`. -/
theorem simulate_paths_rows_shape (m : Libm α) (norm : G → α × G) (S0 drift diffusion : α)
    (n_steps : Int) (N L : Nat) (hL : 1 ≤ L) (k : Nat) (path : Nat) (rng : G)
    (paths : List (List α)) (hk : path + k = N) (hlen : paths.length = N)
    (hrow : ∀ (i : Nat) (row : List α), paths[i]? = some row → row.length = L)
    (hfirst : ∀ (i : Nat) (row : List α), i < path → paths[i]? = some row → row[0]? = some S0) :
    (simulate_paths_rows m norm S0 drift diffusion n_steps k path rng paths).1.length = N
    ∧ ∀ (i : Nat) (row : List α),
        (simulate_paths_rows m norm S0 drift diffusion n_steps k path rng paths).1[i]?
          = some row →
        row.length = L ∧ row[0]? = some S0 := by
  induction k generalizing path rng paths with
  | zero =>
    refine ⟨hlen, fun i row hi => ⟨hrow i row hi, hfirst i row ?_ hi⟩⟩
    have := (List.getElem?_eq_some_iff.mp hi).1
    simp only [simulate_paths_rows] at this
    omega
  | succ k ih =>
    simp only [simulate_paths_rows]
    have hpath : path < paths.length := by omega
    have hget : paths[path]? = some (paths.getD path []) := by
      rw [List.getD_eq_getElem?_getD, List.getElem?_eq_getElem hpath]
      rfl
    have hL0 : (paths.getD path []).length = L := hrow path _ hget
    obtain ⟨hs1, hs2⟩ := simulate_paths_steps_row m norm drift diffusion n_steps.toNat 1 rng S0
      ((paths.getD path []).set 0 S0) (Nat.le_refl 1)
    apply ih (path + 1) _ _ (by omega) (by rw [List.length_set, hlen])
    · intro i row hi
      by_cases hpi : path = i
      · subst hpi
        rw [List.getElem?_set_self hpath] at hi
        cases hi
        rw [hs1, List.length_set, hL0]
      · rw [List.getElem?_set_ne hpi] at hi
        exact hrow i row hi
    · intro i row hlt hi
      by_cases hpi : path = i
      · subst hpi
        rw [List.getElem?_set_self hpath] at hi
        cases hi
        rw [hs2, List.getElem?_set_self (by omega)]
      · rw [List.getElem?_set_ne hpi] at hi
        exact hfirst i row (by omega) hi

/-- C7: for every S0, mu, sigma, T, every n_steps ≥ 0 and n_paths ≥ 0 and every generator
state, `simulate_paths` returns a matrix with exactly n_paths rows, each of length exactly
n_steps + 1, and entry 0 of every row is S0. -/
theorem simulate_paths_shape (m : Libm α) (norm : G → α × G) (S0 mu sigma T : α)
    (n_steps n_paths : Int) (rng : G) (hsteps : 0 ≤ n_steps) (hpaths : 0 ≤ n_paths) :
    (((simulate_paths m norm S0 mu sigma T n_steps n_paths rng).1.length : Nat) : Int) = n_paths
    ∧ ∀ row ∈ (simulate_paths m norm S0 mu sigma T n_steps n_paths rng).1,
        ((row.length : Nat) : Int) = n_steps + 1 ∧ row[0]? = some S0 := by
  have h := simulate_paths_rows_shape m norm S0
    ((mu - 0.5 * sigma * sigma) * (T / (n_steps : α))) (sigma * m.sqrt (T / (n_steps : α)))
    n_steps n_paths.toNat (n_steps + 1).toNat (by omega) n_paths.toNat 0 rng
    (List.replicate n_paths.toNat (List.replicate (n_steps + 1).toNat 0))
    (by omega) (by simp)
    (fun i row hi => by
      rw [List.getElem?_replicate] at hi
      split at hi
      · cases hi
        simp
      · cases hi)
    (fun i row hlt _ => absurd hlt (Nat.not_lt_zero i))
  simp only [simulate_paths]
  refine ⟨by rw [h.1]; omega, fun row hmem => ?_⟩
  obtain ⟨i, hi⟩ := List.mem_iff_getElem?.mp hmem
  obtain ⟨h1, h2⟩ := h.2 i row hi
  exact ⟨by rw [h1]; omega, h2⟩

/-- Witness for C7: S0 = 100, n_steps = 10, n_paths = 5 gives a 5 x 11 matrix whose first
column is 100 (here with mu = 0.05, sigma = 0.2, T = 1 and the draws 0, 1, 2, ...). -/
theorem simulate_paths_shape_witness :
    (((simulate_paths realLibm (fun g : Nat => ((g : ℝ), g + 1)) 100 0.05 0.2 1 10 5 0).1.length
        : Nat) : Int) = 5
    ∧ ∀ row ∈ (simulate_paths realLibm (fun g : Nat => ((g : ℝ), g + 1)) 100 0.05 0.2 1 10 5 0).1,
        ((row.length : Nat) : Int) = 10 + 1 ∧ row[0]? = some 100 :=
  simulate_paths_shape realLibm (fun g : Nat => ((g : ℝ), g + 1)) 100 0.05 0.2 1 10 5 0
    (by decide) (by decide)

end MonteCarloEngine

namespace MonteCarloEngine

section Stream

variable {α G : Type}

/-- Drawing once and then `j` times is drawing `j + 1` times. -/
theorem rng_after_succ (norm : G → α × G) (rng : G) (j : Nat) :
    rng_after norm rng (j + 1) = rng_after norm (norm rng).2 j := by
  simp [rng_after, Function.iterate_succ_apply]

/-- Drawing `i` times and then `j` times is drawing `i + j` times. -/
theorem rng_after_add (norm : G → α × G) (rng : G) (i j : Nat) :
    rng_after norm (rng_after norm rng i) j = rng_after norm rng (i + j) := by
  simp only [rng_after]
  rw [Nat.add_comm, Function.iterate_add_apply]

/-- The draw `j + 1` after one draw is the draw `j + 2`. -/
theorem draw_at_succ (norm : G → α × G) (rng : G) (j : Nat) :
    draw_at norm rng (j + 1) = draw_at norm (norm rng).2 j := by
  simp only [draw_at, rng_after_succ]

/-- The draw `j + 1` after `i` draws is the draw `i + j + 1`. -/
theorem draw_at_rng_after (norm : G → α × G) (rng : G) (i j : Nat) :
    draw_at norm (rng_after norm rng i) j = draw_at norm rng (i + j) := by
  simp only [draw_at, rng_after_add]

/-- A generator whose state counts the draws made: after `k` draws from state `g` it is in
state `g + k`. -/
theorem rng_after_counter (z : Nat → α) (g k : Nat) :
    rng_after (fun g : Nat => (z g, g + 1)) g k = g + k := by
  induction k generalizing g with
  | zero => rfl
  | succ k ih =>
    rw [rng_after_succ, ih]
    omega

end Stream

variable {α : Type} [LinearOrderedField α] {G : Type}

/-- A path of `k + 1` steps is its first step followed by a path of `k` steps. -/
theorem path_price_succ (m : Libm α) (norm : G → α × G) (drift diffusion S0 : α) (rng : G)
    (k : Nat) :
    path_price m norm drift diffusion S0 rng (k + 1)
      = path_price m norm drift diffusion (S0 * m.exp (drift + diffusion * (norm rng).1))
          (norm rng).2 k := by
  induction k with
  | zero => simp [path_price, draw_at, rng_after]
  | succ k ih =>
    rw [path_price, ih, draw_at_succ]
    rfl

/-- The two barrier tests of the code (lines 95-101) are the knock-out condition. -/
theorem barrier_tests_eq (B : α) (is_down_and_out : Bool) (S : α) {β : Type} (a b : β) :
    (if (is_down_and_out && decide (S ≤ B)) = true then a
      else if (!is_down_and_out && decide (S ≥ B)) = true then a else b)
      = if barrier_breached B is_down_and_out S = true then a else b := by
  cases is_down_and_out <;> by_cases h1 : S ≤ B <;> by_cases h2 : S ≥ B <;>
    simp [barrier_breached, h1, h2]

/-- The first knock-out step of a path of `k + 1` steps: step 1 when the first price
breaches the barrier, otherwise one more than that of the remaining `k` steps. -/
theorem knock_out_step_succ (m : Libm α) (norm : G → α × G) (S0 B drift diffusion : α)
    (is_down_and_out : Bool) (k : Nat) (rng : G) :
    knock_out_step m norm S0 B drift diffusion is_down_and_out (k + 1) rng
      = if barrier_breached B is_down_and_out
            (S0 * m.exp (drift + diffusion * (norm rng).1)) = true
        then some 0
        else (knock_out_step m norm (S0 * m.exp (drift + diffusion * (norm rng).1)) B drift
          diffusion is_down_and_out k (norm rng).2).map (· + 1) := by
  simp only [knock_out_step, List.range_succ_eq_map, List.find?_cons, List.find?_map]
  have h1 : path_price m norm drift diffusion S0 rng (0 + 1)
      = S0 * m.exp (drift + diffusion * (norm rng).1) := by
    simp [path_price, draw_at, rng_after]
  rw [h1]
  have h2 : ((fun j => barrier_breached B is_down_and_out
        (path_price m norm drift diffusion S0 rng (j + 1))) ∘ Nat.succ)
      = fun j => barrier_breached B is_down_and_out
        (path_price m norm drift diffusion (S0 * m.exp (drift + diffusion * (norm rng).1))
          (norm rng).2 (j + 1)) := by
    funext j
    simp only [Function.comp, Nat.succ_eq_add_one]
    rw [path_price_succ]
  rw [h2]
  cases barrier_breached B is_down_and_out (S0 * m.exp (drift + diffusion * (norm rng).1))
  · simp
  · simp

/-- The inner loop of `price_barrier` against the reference: it stops after
`barrier_draws` draws, at the price reached there, with `barrier_hit` set exactly when the
path is knocked out. -/
theorem price_barrier_steps_eq (m : Libm α) (norm : G → α × G) (B drift diffusion : α)
    (is_down_and_out : Bool) (k : Nat) (rng : G) (S : α) :
    price_barrier_steps m norm B drift diffusion is_down_and_out k rng S
      = (rng_after norm rng (barrier_draws m norm S B drift diffusion is_down_and_out k rng),
         path_price m norm drift diffusion S rng
           (barrier_draws m norm S B drift diffusion is_down_and_out k rng),
         (knock_out_step m norm S B drift diffusion is_down_and_out k rng).isSome) := by
  induction k generalizing rng S with
  | zero => simp [price_barrier_steps, barrier_draws, knock_out_step, rng_after, path_price]
  | succ k ih =>
    simp only [price_barrier_steps]
    rw [barrier_tests_eq, ih]
    simp only [barrier_draws]
    rw [knock_out_step_succ]
    by_cases hb : barrier_breached B is_down_and_out
        (S * m.exp (drift + diffusion * (norm rng).1)) = true
    · simp [hb, rng_after, path_price, draw_at]
    · simp only [hb, if_false]
      cases hk : knock_out_step m norm (S * m.exp (drift + diffusion * (norm rng).1)) B drift
          diffusion is_down_and_out k (norm rng).2 with
      | none => simp [rng_after_succ, path_price_succ]
      | some j => simp [rng_after_succ, path_price_succ]

end MonteCarloEngine

namespace MonteCarloEngine

variable {α : Type} [LinearOrderedField α] {G : Type}

/-- The reference knock-out step in the words of the specification: there is one exactly when
some step `k` with `1 ≤ k ≤ n_steps` has its price in breach of the barrier. -/
theorem knock_out_step_isSome_iff (m : Libm α) (norm : G → α × G) (S0 B drift diffusion : α)
    (is_down_and_out : Bool) (n_steps : Nat) (rng : G) :
    (knock_out_step m norm S0 B drift diffusion is_down_and_out n_steps rng).isSome = true
      ↔ ∃ k, 1 ≤ k ∧ k ≤ n_steps ∧
          barrier_breached B is_down_and_out (path_price m norm drift diffusion S0 rng k)
            = true := by
  simp only [knock_out_step, List.find?_isSome, List.mem_range]
  constructor
  · rintro ⟨j, hj, hb⟩
    exact ⟨j + 1, by omega, by omega, hb⟩
  · rintro ⟨k, h1, h2, hb⟩
    refine ⟨k - 1, by omega, ?_⟩
    rw [Nat.sub_add_cancel h1]
    exact hb

/-- A knocked-out path contributes zero. -/
theorem barrier_contribution_of_breach (m : Libm α) (norm : G → α × G)
    (S0 K B drift diffusion : α) (is_call is_down_and_out : Bool) (n_steps : Nat) (rng : G)
    (h : ∃ k, 1 ≤ k ∧ k ≤ n_steps ∧
      barrier_breached B is_down_and_out (path_price m norm drift diffusion S0 rng k) = true) :
    barrier_contribution m norm S0 K B drift diffusion is_call is_down_and_out n_steps rng
      = 0 := by
  have hs := (knock_out_step_isSome_iff m norm S0 B drift diffusion is_down_and_out n_steps
    rng).mpr h
  simp only [barrier_contribution]
  cases hk : knock_out_step m norm S0 B drift diffusion is_down_and_out n_steps rng with
  | none => rw [hk] at hs; cases hs
  | some j => rfl

/-- A surviving path contributes the vanilla payoff on its terminal price. -/
theorem barrier_contribution_of_no_breach (m : Libm α) (norm : G → α × G)
    (S0 K B drift diffusion : α) (is_call is_down_and_out : Bool) (n_steps : Nat) (rng : G)
    (h : ¬ ∃ k, 1 ≤ k ∧ k ≤ n_steps ∧
      barrier_breached B is_down_and_out (path_price m norm drift diffusion S0 rng k) = true) :
    barrier_contribution m norm S0 K B drift diffusion is_call is_down_and_out n_steps rng
      = vanilla_payoff is_call K (path_price m norm drift diffusion S0 rng n_steps) := by
  have hs := (knock_out_step_isSome_iff m norm S0 B drift diffusion is_down_and_out n_steps
    rng).not.mpr h
  simp only [barrier_contribution]
  cases hk : knock_out_step m norm S0 B drift diffusion is_down_and_out n_steps rng with
  | none => rfl
  | some j => rw [hk] at hs; exact absurd rfl hs

/-- The outer loop of `price_barrier` against the reference: it adds the contributions of
its `k` paths to `sum_payoffs`, each path starting where the one before stopped drawing. -/
theorem price_barrier_paths_eq (m : Libm α) (norm : G → α × G) (S0 K B drift diffusion : α)
    (is_call is_down_and_out : Bool) (n_steps : Int) (k : Nat) (rng : G) (sum_payoffs : α) :
    price_barrier_paths m norm S0 K B drift diffusion is_call is_down_and_out n_steps k rng
        sum_payoffs
      = (sum_payoffs + ∑ p in Finset.range k,
            barrier_contribution m norm S0 K B drift diffusion is_call is_down_and_out
              n_steps.toNat
              (barrier_path_start m norm S0 B drift diffusion is_down_and_out n_steps.toNat
                rng p),
         barrier_path_start m norm S0 B drift diffusion is_down_and_out n_steps.toNat
           rng k) := by
  induction k generalizing rng sum_payoffs with
  | zero => simp [price_barrier_paths, barrier_path_start]
  | succ k ih =>
    simp only [price_barrier_paths]
    rw [price_barrier_steps_eq, ih, Finset.sum_range_succ']
    have hstart : ∀ p, barrier_path_start m norm S0 B drift diffusion is_down_and_out
        n_steps.toNat rng (p + 1)
        = barrier_path_start m norm S0 B drift diffusion is_down_and_out n_steps.toNat
            (rng_after norm rng (barrier_draws m norm S0 B drift diffusion is_down_and_out
              n_steps.toNat rng)) p := by
      intro p
      simp only [barrier_path_start, Function.iterate_succ_apply]
    simp only [hstart]
    have hacc : (if (!(knock_out_step m norm S0 B drift diffusion is_down_and_out
          n_steps.toNat rng).isSome) = true
        then sum_payoffs + vanilla_payoff is_call K (path_price m norm drift diffusion S0 rng
          (barrier_draws m norm S0 B drift diffusion is_down_and_out n_steps.toNat rng))
        else sum_payoffs)
        = sum_payoffs + barrier_contribution m norm S0 K B drift diffusion is_call
            is_down_and_out n_steps.toNat rng := by
      simp only [barrier_contribution, barrier_draws]
      cases knock_out_step m norm S0 B drift diffusion is_down_and_out n_steps.toNat rng
      · simp
      · simp
    rw [hacc]
    refine Prod.ext ?_ rfl
    simp only [barrier_path_start, Function.iterate_zero, id]
    ring

/-- C8: `price_barrier` returns `exp(-r*T) / n_paths` times the sum over all `n_paths` paths
of the contribution of the path, where a path contributes 0 when at some step
`1, ..., n_steps` its price `S` has `S ≤ B` (down-and-out) or `S ≥ B` (up-and-out), and the
vanilla payoff on its terminal price otherwise; knocked-out paths count in the divisor. -/
theorem price_barrier_eq (m : Libm α) (norm : G → α × G) (S0 K B T r sigma : α)
    (is_call is_down_and_out : Bool) (n_steps n_paths : Int) (rng : G) :
    (price_barrier m norm S0 K B T r sigma is_call is_down_and_out n_steps n_paths rng).1
      = m.exp (-r * T) / (n_paths : α)
        * ∑ p in Finset.range n_paths.toNat,
            barrier_contribution m norm S0 K B
              ((r - 0.5 * sigma * sigma) * (T / (n_steps : α)))
              (sigma * m.sqrt (T / (n_steps : α))) is_call is_down_and_out n_steps.toNat
              (barrier_path_start m norm S0 B
                ((r - 0.5 * sigma * sigma) * (T / (n_steps : α)))
                (sigma * m.sqrt (T / (n_steps : α))) is_down_and_out n_steps.toNat rng p)
    ∧ ∀ (drift diffusion : α) (g : G),
        ((∃ k, 1 ≤ k ∧ k ≤ n_steps.toNat ∧
            (if is_down_and_out then path_price m norm drift diffusion S0 g k ≤ B
              else path_price m norm drift diffusion S0 g k ≥ B)) →
          barrier_contribution m norm S0 K B drift diffusion is_call is_down_and_out
            n_steps.toNat g = 0)
        ∧ ((¬ ∃ k, 1 ≤ k ∧ k ≤ n_steps.toNat ∧
            (if is_down_and_out then path_price m norm drift diffusion S0 g k ≤ B
              else path_price m norm drift diffusion S0 g k ≥ B)) →
          barrier_contribution m norm S0 K B drift diffusion is_call is_down_and_out
            n_steps.toNat g
            = if is_call
                then max 0 (path_price m norm drift diffusion S0 g n_steps.toNat - K)
                else max 0 (K - path_price m norm drift diffusion S0 g n_steps.toNat)) := by
  have hb : ∀ (S : α), barrier_breached B is_down_and_out S = true
      ↔ (if is_down_and_out then S ≤ B else S ≥ B) := by
    intro S
    cases is_down_and_out <;> simp [barrier_breached]
  refine ⟨?_, fun drift diffusion g => ⟨fun h => ?_, fun h => ?_⟩⟩
  · simp only [price_barrier, price_barrier_paths_eq, zero_add]
    ring
  · apply barrier_contribution_of_breach
    obtain ⟨k, h1, h2, h3⟩ := h
    exact ⟨k, h1, h2, (hb _).mpr h3⟩
  · rw [barrier_contribution_of_no_breach]
    · rfl
    · rintro ⟨k, h1, h2, h3⟩
      exact h ⟨k, h1, h2, (hb _).mp h3⟩

end MonteCarloEngine

namespace MonteCarloEngine

variable {α : Type} [LinearOrderedField α] {G : Type}

/-- The inner loop of `price_asian` against the reference: after `k` steps the generator has
made `k` draws, `S` is the `k`-th price of the path and `sum_S` has grown by the prices
`S_1, ..., S_k`. -/
theorem price_asian_steps_eq (m : Libm α) (norm : G → α × G) (drift diffusion : α) (k : Nat)
    (rng : G) (S sum_S : α) :
    price_asian_steps m norm drift diffusion k rng S sum_S
      = (rng_after norm rng k, path_price m norm drift diffusion S rng k,
         sum_S + ∑ j in Finset.range k, path_price m norm drift diffusion S rng (j + 1)) := by
  induction k generalizing rng S sum_S with
  | zero => simp [price_asian_steps, rng_after, path_price]
  | succ k ih =>
    simp only [price_asian_steps]
    rw [ih, Finset.sum_range_succ']
    simp only [← path_price_succ, ← rng_after_succ]
    refine Prod.ext rfl (Prod.ext rfl ?_)
    simp only [path_price, draw_at, rng_after, Function.iterate_zero, id]
    ring

/-- The outer loop of `price_asian` against the reference: path `p` starts after
`p * n_steps` draws and adds the payoff on its average price. -/
theorem price_asian_paths_eq (m : Libm α) (norm : G → α × G) (S0 K drift diffusion : α)
    (is_call : Bool) (n_steps : Int) (k : Nat) (rng : G) (sum_payoffs : α) :
    price_asian_paths m norm S0 K drift diffusion is_call n_steps k rng sum_payoffs
      = (sum_payoffs + ∑ p in Finset.range k,
            vanilla_payoff is_call K
              (asian_average m norm S0 drift diffusion n_steps
                (rng_after norm rng (p * n_steps.toNat))),
         rng_after norm rng (k * n_steps.toNat)) := by
  induction k generalizing rng sum_payoffs with
  | zero => simp [price_asian_paths, rng_after]
  | succ k ih =>
    simp only [price_asian_paths]
    rw [price_asian_steps_eq, ih, Finset.sum_range_succ']
    have hadd : ∀ p, rng_after norm (rng_after norm rng n_steps.toNat) (p * n_steps.toNat)
        = rng_after norm rng ((p + 1) * n_steps.toNat) := by
      intro p
      rw [rng_after_add, Nat.succ_mul, Nat.add_comm]
    simp only [hadd]
    refine Prod.ext ?_ rfl
    simp only [asian_average, zero_add, Nat.zero_mul, rng_after, Function.iterate_zero, id]
    ring

/-- C10: `price_asian` returns `exp(-r*T) / n_paths` times the sum over the `n_paths` paths
of `max(0, A - K)` for a call or `max(0, K - A)` for a put, where
`A = (S_1 + ... + S_{n_steps}) / n_steps` averages the `n_steps` post-initial prices of the
path (`S_0 = S0` is not in the sum and the divisor is `n_steps`), each
`S_k = S_{k-1} * exp((r - sigma^2/2)*dt + sigma*sqrt(dt)*z)` with `dt = T / n_steps` and `z`
the next draw: path `p` uses the draws `p*n_steps + 1, ..., (p+1)*n_steps` of the call. -/
theorem price_asian_eq (m : Libm α) (norm : G → α × G) (S0 K T r sigma : α)
    (is_call : Bool) (n_steps n_paths : Int) (rng : G) :
    (price_asian m norm S0 K T r sigma is_call n_steps n_paths rng).1
      = m.exp (-r * T) / (n_paths : α)
        * ∑ p in Finset.range n_paths.toNat,
            (if is_call
              then max 0
                ((∑ j in Finset.range n_steps.toNat,
                    path_price m norm ((r - 0.5 * sigma * sigma) * (T / (n_steps : α)))
                      (sigma * m.sqrt (T / (n_steps : α))) S0
                      (rng_after norm rng (p * n_steps.toNat)) (j + 1)) / (n_steps : α) - K)
              else max 0
                (K - (∑ j in Finset.range n_steps.toNat,
                    path_price m norm ((r - 0.5 * sigma * sigma) * (T / (n_steps : α)))
                      (sigma * m.sqrt (T / (n_steps : α))) S0
                      (rng_after norm rng (p * n_steps.toNat)) (j + 1)) / (n_steps : α)))
    ∧ (price_asian m norm S0 K T r sigma is_call n_steps n_paths rng).2
      = rng_after norm rng (n_paths.toNat * n_steps.toNat)
    ∧ ∀ (drift diffusion : α) (g : G) (k : Nat),
        path_price m norm drift diffusion S0 g 0 = S0
        ∧ path_price m norm drift diffusion S0 g (k + 1)
          = path_price m norm drift diffusion S0 g k
            * m.exp (drift + diffusion * (norm (rng_after norm g k)).1) := by
  refine ⟨?_, ?_, fun drift diffusion g k => ⟨rfl, rfl⟩⟩
  · simp only [price_asian, price_asian_paths_eq, zero_add, vanilla_payoff, asian_average]
    ring
  · simp only [price_asian, price_asian_paths_eq]

end MonteCarloEngine

namespace MonteCarloEngine

variable {α : Type} [LinearOrderedField α] {G : Type}

/-- The vanilla payoff is never negative. -/
theorem vanilla_payoff_nonneg (is_call : Bool) (K x : α) : 0 ≤ vanilla_payoff is_call K x := by
  cases is_call <;> simp [vanilla_payoff]

/-- The contribution of a barrier path lies between zero and the vanilla payoff on the
terminal price of the same path simulated through all its steps. -/
theorem barrier_contribution_bounds (m : Libm α) (norm : G → α × G)
    (S0 K B drift diffusion : α) (is_call is_down_and_out : Bool) (n_steps : Nat) (rng : G) :
    0 ≤ barrier_contribution m norm S0 K B drift diffusion is_call is_down_and_out n_steps rng
    ∧ barrier_contribution m norm S0 K B drift diffusion is_call is_down_and_out n_steps rng
      ≤ vanilla_payoff is_call K (path_price m norm drift diffusion S0 rng n_steps) := by
  simp only [barrier_contribution]
  cases knock_out_step m norm S0 B drift diffusion is_down_and_out n_steps rng with
  | none => exact ⟨vanilla_payoff_nonneg _ _ _, le_refl _⟩
  | some j => exact ⟨le_refl _, vanilla_payoff_nonneg _ _ _⟩

/-- C9 (counterexample): S0 = K = 100, T = 1, r = 0, sigma = 1, barrier B = 50, one path of
one step, and a generator whose next draw is z = 2. The path ends at `100 * exp(1.5)`, above
the barrier, so `price_barrier` returns `100 * exp(1.5) - 100 > 150`, while
`call_price(100,100,1,0,1) < 100`. -/
theorem price_barrier_exceeds_call_price :
    (0 : ℝ) < 100 ∧ (0 : ℝ) < 1 ∧ (0 : Int) < 1 ∧
    (price_barrier realLibm (fun g : Nat => ((2 : ℝ), g + 1)) 100 100 50 1 0 1 true true 1 1 0).1
      = 100 * Real.exp 1.5 - 100
    ∧ ¬ (price_barrier realLibm (fun g : Nat => ((2 : ℝ), g + 1)) 100 100 50 1 0 1 true true
          1 1 0).1
        ≤ BlackScholesEngine.call_price realLibm 100 100 1 0 1 := by
  have he : (2.5 : ℝ) ≤ Real.exp 1.5 := by
    have := Real.add_one_le_exp (1.5 : ℝ)
    norm_num at this ⊢
    linarith
  have hS : ¬ (100 * Real.exp 1.5 ≤ (50 : ℝ)) := by
    intro h
    linarith
  have hval : (price_barrier realLibm (fun g : Nat => ((2 : ℝ), g + 1)) 100 100 50 1 0 1 true
      true 1 1 0).1 = 100 * Real.exp 1.5 - 100 := by
    have e : (-0.5 + 2 : ℝ) = 1.5 := by norm_num
    simp [price_barrier, price_barrier_paths, price_barrier_steps, vanilla_payoff, realLibm, e,
      hS]
    linarith
  refine ⟨by norm_num, by norm_num, by norm_num, hval, ?_⟩
  rw [hval]
  have hc := (BlackScholesEngine.call_price_real_bounds 100 100 1 0 1 (by norm_num)
    (by norm_num)).2
  intro h
  linarith

/-- C9 (as amended): for every generator state and every argument tuple, the value of
`price_barrier` is at least 0 and at most `exp(-r*T) / n_paths` times the sum, over its
paths, of the vanilla payoff on the terminal price of the same path simulated through all
`n_steps` steps: knocking a path out can only lower its contribution. -/
theorem price_barrier_le_vanilla_estimate {G : Type} (norm : G → ℝ × G)
    (S0 K B T r sigma : ℝ) (is_call is_down_and_out : Bool) (n_steps n_paths : Int) (rng : G) :
    0 ≤ (price_barrier realLibm norm S0 K B T r sigma is_call is_down_and_out n_steps n_paths
          rng).1
    ∧ (price_barrier realLibm norm S0 K B T r sigma is_call is_down_and_out n_steps n_paths
          rng).1
      ≤ Real.exp (-r * T) / (n_paths : ℝ)
        * ∑ p in Finset.range n_paths.toNat,
            (if is_call
              then max 0
                (path_price realLibm norm ((r - 0.5 * sigma * sigma) * (T / (n_steps : ℝ)))
                  (sigma * Real.sqrt (T / (n_steps : ℝ))) S0
                  (barrier_path_start realLibm norm S0 B
                    ((r - 0.5 * sigma * sigma) * (T / (n_steps : ℝ)))
                    (sigma * Real.sqrt (T / (n_steps : ℝ))) is_down_and_out n_steps.toNat rng p)
                  n_steps.toNat - K)
              else max 0
                (K - path_price realLibm norm ((r - 0.5 * sigma * sigma) * (T / (n_steps : ℝ)))
                  (sigma * Real.sqrt (T / (n_steps : ℝ))) S0
                  (barrier_path_start realLibm norm S0 B
                    ((r - 0.5 * sigma * sigma) * (T / (n_steps : ℝ)))
                    (sigma * Real.sqrt (T / (n_steps : ℝ))) is_down_and_out n_steps.toNat rng p)
                  n_steps.toNat)) := by
  have hval : (price_barrier realLibm norm S0 K B T r sigma is_call is_down_and_out n_steps
      n_paths rng).1
      = Real.exp (-r * T) / (n_paths : ℝ)
        * ∑ p in Finset.range n_paths.toNat,
            barrier_contribution realLibm norm S0 K B
              ((r - 0.5 * sigma * sigma) * (T / (n_steps : ℝ)))
              (sigma * Real.sqrt (T / (n_steps : ℝ))) is_call is_down_and_out n_steps.toNat
              (barrier_path_start realLibm norm S0 B
                ((r - 0.5 * sigma * sigma) * (T / (n_steps : ℝ)))
                (sigma * Real.sqrt (T / (n_steps : ℝ))) is_down_and_out n_steps.toNat rng p) := by
    simp only [price_barrier, price_barrier_paths_eq, zero_add, realLibm]
    ring
  rw [hval]
  rcases le_or_lt n_paths 0 with hn | hn
  · have h0 : n_paths.toNat = 0 := Int.toNat_eq_zero.mpr hn
    simp [h0]
  · have hc : (0 : ℝ) ≤ Real.exp (-r * T) / (n_paths : ℝ) := by
      have : (0 : ℝ) < (n_paths : ℝ) := by exact_mod_cast hn
      positivity
    constructor
    · apply mul_nonneg hc
      apply Finset.sum_nonneg
      intro p _
      exact (barrier_contribution_bounds realLibm norm S0 K B _ _ is_call is_down_and_out _ _).1
    · apply mul_le_mul_of_nonneg_left _ hc
      apply Finset.sum_le_sum
      intro p _
      exact (barrier_contribution_bounds realLibm norm S0 K B _ _ is_call is_down_and_out _ _).2

end MonteCarloEngine

namespace BlackScholesEngine

variable {α : Type} [LinearOrderedField α]

/-- C14: delta parity. For every S, K, T, r, sigma the delta of the call minus the delta of
the put is exactly 1. -/
theorem delta_parity (m : Libm α) (S K T r sigma : α) :
    delta m S K T r sigma true - delta m S K T r sigma false = 1 := by
  simp only [delta, if_true, Bool.false_eq_true, if_false]
  ring

end BlackScholesEngine

namespace MonteCarloEngine

variable {α : Type} [LinearOrderedField α] {G : Type}

/-- The loop of `price_european` against the reference: `k` iterations make `k` draws and
add the payoffs of the `k` antithetic pairs to `sum_payoffs`. -/
theorem price_european_loop_eq (m : Libm α) (norm : G → α × G) (S0 K drift diffusion : α)
    (is_call : Bool) (k : Nat) (rng : G) (sum_payoffs : α) :
    price_european_loop m norm S0 K drift diffusion is_call k rng sum_payoffs
      = (sum_payoffs + ∑ j in Finset.range k,
            antithetic_pair_payoff m S0 K drift diffusion is_call (draw_at norm rng j),
         rng_after norm rng k) := by
  induction k generalizing rng sum_payoffs with
  | zero => simp [price_european_loop, rng_after]
  | succ k ih =>
    simp only [price_european_loop]
    rw [ih, Finset.sum_range_succ']
    simp only [draw_at_succ, rng_after_succ]
    refine Prod.ext ?_ rfl
    simp only [antithetic_pair_payoff, draw_at, rng_after, Function.iterate_zero, id]
    ring

/-- The value and final state of `price_european` in terms of the number of pairs
`n_paths / 2`. -/
theorem price_european_eq (m : Libm α) (norm : G → α × G) (S0 K T r sigma : α)
    (is_call : Bool) (n_paths : Int) (rng : G) :
    price_european m norm S0 K T r sigma is_call n_paths rng
      = (m.exp (-r * T)
          * (∑ j in Finset.range (Int.tdiv n_paths 2).toNat,
              antithetic_pair_payoff m S0 K ((r - 0.5 * sigma * sigma) * T)
                (sigma * m.sqrt T) is_call (draw_at norm rng j))
          / ((Int.tdiv n_paths 2 : Int) : α),
         rng_after norm rng (Int.tdiv n_paths 2).toNat) := by
  simp only [price_european, price_european_loop_eq, zero_add]

/-- The truncating division by 2 of `2 * k + 1` and of `2 * k`. -/
theorem tdiv_two_odd_even (k : Nat) :
    Int.tdiv (2 * (k : Int) + 1) 2 = k ∧ Int.tdiv (2 * (k : Int)) 2 = k := by
  constructor
  · rw [Int.tdiv_eq_ediv (by omega) (by omega)]
    omega
  · rw [Int.tdiv_eq_ediv (by omega) (by omega)]
    omega

/-- C11: odd-`n_paths` truncation in `price_european`. For every `k ≥ 1`, every generator
state and every other argument, the call with `n_paths = 2k + 1` returns the same value and
leaves the generator in the same state as the call with `n_paths = 2k`; both consume exactly
`k` draws and divide the sum of the `k` pair payoffs by `k`. -/
theorem price_european_odd_truncation (m : Libm α) (norm : G → α × G) (S0 K T r sigma : α)
    (is_call : Bool) (k : Nat) (rng : G) (hk : 1 ≤ k) :
    price_european m norm S0 K T r sigma is_call (2 * (k : Int) + 1) rng
      = price_european m norm S0 K T r sigma is_call (2 * (k : Int)) rng
    ∧ (price_european m norm S0 K T r sigma is_call (2 * (k : Int) + 1) rng).2
      = rng_after norm rng k
    ∧ (price_european m norm S0 K T r sigma is_call (2 * (k : Int) + 1) rng).1
      = m.exp (-r * T)
          * (∑ j in Finset.range k,
              antithetic_pair_payoff m S0 K ((r - 0.5 * sigma * sigma) * T)
                (sigma * m.sqrt T) is_call (draw_at norm rng j))
          / (k : α) := by
  have _hpos : 1 ≤ k := hk
  obtain ⟨ho, he⟩ := tdiv_two_odd_even k
  simp only [price_european_eq, ho, he, Int.toNat_ofNat, Int.cast_natCast, and_self]

/-- Witness for C11: `n_paths = 7` against `n_paths = 6` (k = 3), with the draws 0, 1, 2, ... -/
theorem price_european_odd_truncation_witness :
    price_european realLibm (fun g : Nat => ((g : ℝ), g + 1)) 100 100 1 0.05 0.2 true 7 0
      = price_european realLibm (fun g : Nat => ((g : ℝ), g + 1)) 100 100 1 0.05 0.2 true 6 0 := by
  have h := (price_european_odd_truncation realLibm (fun g : Nat => ((g : ℝ), g + 1))
    100 100 1 0.05 0.2 true 3 0 (by decide)).1
  exact h

end MonteCarloEngine

namespace MonteCarloEngine

section Negation

variable {α : Type} [LinearOrderedField α] {G : Type}

/-- Flipping the sign of the draws does not change the states the generator goes through. -/
theorem rng_after_negated (norm : G → α × G) (rng : G) (j : Nat) :
    rng_after (negated norm) rng j = rng_after norm rng j := by
  induction j generalizing rng with
  | zero => rfl
  | succ j ih =>
    rw [rng_after_succ, rng_after_succ, ih]
    rfl

/-- The draws of the negated generator are the opposites of the draws of the generator. -/
theorem draw_at_negated (norm : G → α × G) (rng : G) (j : Nat) :
    draw_at (negated norm) rng j = -draw_at norm rng j := by
  simp only [draw_at, rng_after_negated]
  rfl

/-- The payoff of an antithetic pair is the same for `z` and for `-z`. -/
theorem antithetic_pair_payoff_neg (m : Libm α) (S0 K drift diffusion : α) (is_call : Bool)
    (z : α) :
    antithetic_pair_payoff m S0 K drift diffusion is_call (-z)
      = antithetic_pair_payoff m S0 K drift diffusion is_call z := by
  simp only [antithetic_pair_payoff]
  have h1 : drift + diffusion * -z = drift - diffusion * z := by ring
  have h2 : drift - diffusion * -z = drift + diffusion * z := by ring
  rw [h1, h2, add_comm]

/-- The payoff of an antithetic pair is never negative. -/
theorem antithetic_pair_payoff_nonneg (m : Libm α) (S0 K drift diffusion : α)
    (is_call : Bool) (z : α) :
    0 ≤ antithetic_pair_payoff m S0 K drift diffusion is_call z := by
  simp only [antithetic_pair_payoff]
  have h1 := vanilla_payoff_nonneg is_call K (S0 * m.exp (drift + diffusion * z))
  have h2 := vanilla_payoff_nonneg is_call K (S0 * m.exp (drift - diffusion * z))
  positivity

/-- C20: antithetic symmetry of `price_european`. For `n_paths ≥ 2` the value returned is
unchanged when every draw `z_i` is replaced by `-z_i`, because it is `exp(-r*T)` times the
sum of the pair payoffs `(payoff(z_i) + payoff(-z_i)) / 2` over the `n_paths / 2` draws,
divided by `n_paths / 2`; and it is at least 0 (given that `exp(-r*T)` is, as it is for the
real exponential). -/
theorem price_european_antithetic_symmetry (m : Libm α) (norm : G → α × G)
    (S0 K T r sigma : α) (is_call : Bool) (n_paths : Int) (rng : G)
    (hn : 2 ≤ n_paths) (hexp : 0 ≤ m.exp (-r * T)) :
    (price_european m (negated norm) S0 K T r sigma is_call n_paths rng).1
      = (price_european m norm S0 K T r sigma is_call n_paths rng).1
    ∧ (price_european m norm S0 K T r sigma is_call n_paths rng).1
      = m.exp (-r * T)
          * (∑ j in Finset.range (Int.tdiv n_paths 2).toNat,
              (vanilla_payoff is_call K
                  (S0 * m.exp ((r - 0.5 * sigma * sigma) * T
                    + sigma * m.sqrt T * draw_at norm rng j))
                + vanilla_payoff is_call K
                  (S0 * m.exp ((r - 0.5 * sigma * sigma) * T
                    - sigma * m.sqrt T * draw_at norm rng j))) / 2)
          / ((Int.tdiv n_paths 2 : Int) : α)
    ∧ 0 ≤ (price_european m norm S0 K T r sigma is_call n_paths rng).1 := by
  have hdiv : 1 ≤ Int.tdiv n_paths 2 := by
    rw [Int.tdiv_eq_ediv (by omega) (by omega)]
    omega
  have hpos : (0 : α) < ((Int.tdiv n_paths 2 : Int) : α) := by
    exact_mod_cast (by omega : 0 < Int.tdiv n_paths 2)
  refine ⟨?_, ?_, ?_⟩
  · simp only [price_european_eq, draw_at_negated, antithetic_pair_payoff_neg]
  · simp only [price_european_eq, antithetic_pair_payoff]
  · simp only [price_european_eq]
    apply div_nonneg _ hpos.le
    apply mul_nonneg hexp
    apply Finset.sum_nonneg
    intro j _
    exact antithetic_pair_payoff_nonneg m S0 K _ _ is_call _

/-- Witness for C20: a call with `n_paths = 4` on the real functions, with the draws
0, 1, 2, ... -/
theorem price_european_antithetic_symmetry_witness :
    (price_european realLibm (negated (fun g : Nat => ((g : ℝ), g + 1))) 100 100 1 0.05 0.2
        true 4 0).1
      = (price_european realLibm (fun g : Nat => ((g : ℝ), g + 1)) 100 100 1 0.05 0.2
        true 4 0).1
    ∧ 0 ≤ (price_european realLibm (fun g : Nat => ((g : ℝ), g + 1)) 100 100 1 0.05 0.2
        true 4 0).1 := by
  have h := price_european_antithetic_symmetry realLibm (fun g : Nat => ((g : ℝ), g + 1))
    100 100 1 0.05 0.2 true 4 0 (by decide) (Real.exp_pos _).le
  exact ⟨h.1, h.2.2⟩

end Negation

end MonteCarloEngine

namespace MonteCarloEngine

variable {α : Type} [LinearOrderedField α] {G : Type}

/-- The inner loop of `simulate_paths` against the reference: `k` iterations make `k` draws
and write the prices `S_1, ..., S_k` of the path at the positions `step, ..., step + k - 1`
of the row, leaving its other entries as they are. -/
theorem simulate_paths_steps_entries (m : Libm α) (norm : G → α × G) (drift diffusion : α)
    (k : Nat) (step : Nat) (rng : G) (S : α) (row : List α) (hlen : step + k ≤ row.length) :
    (simulate_paths_steps m norm drift diffusion k step rng S row).2 = rng_after norm rng k
    ∧ (simulate_paths_steps m norm drift diffusion k step rng S row).1.length = row.length
    ∧ ∀ i : Nat,
        (simulate_paths_steps m norm drift diffusion k step rng S row).1[i]?
          = if step ≤ i ∧ i < step + k
              then some (path_price m norm drift diffusion S rng (i - step + 1))
              else row[i]? := by
  induction k generalizing step rng S row with
  | zero =>
    refine ⟨rfl, rfl, fun i => ?_⟩
    have : ¬ (step ≤ i ∧ i < step + 0) := by omega
    simp only [simulate_paths_steps, this, if_false]
  | succ k ih =>
    simp only [simulate_paths_steps]
    obtain ⟨h1, h2, h3⟩ := ih (step + 1) (norm rng).2
      (S * m.exp (drift + diffusion * (norm rng).1))
      (row.set step (S * m.exp (drift + diffusion * (norm rng).1)))
      (by rw [List.length_set]; omega)
    refine ⟨by rw [h1, rng_after_succ], by rw [h2, List.length_set], fun i => ?_⟩
    rw [h3 i]
    by_cases hi : step + 1 ≤ i ∧ i < step + 1 + k
    · have hi' : step ≤ i ∧ i < step + (k + 1) := by omega
      simp only [hi, hi', and_self, if_true]
      have e : i - step + 1 = (i - (step + 1) + 1) + 1 := by omega
      rw [e, path_price_succ m norm drift diffusion S rng (i - (step + 1) + 1)]
    · simp only [hi, if_false]
      by_cases hs : i = step
      · subst hs
        have hi' : i ≤ i ∧ i < i + (k + 1) := by omega
        simp only [hi', and_self, if_true]
        rw [List.getElem?_set_self (by omega)]
        simp [path_price, draw_at, rng_after]
      · have hi' : ¬ (step ≤ i ∧ i < step + (k + 1)) := by omega
        simp only [hi', if_false]
        rw [List.getElem?_set_ne (by omega)]

/-- The outer loop of `simulate_paths` against the reference: with `k` rows left from row
`path` on, it makes `k * n_steps` draws, leaves the rows before `path` as they are, and row
`path + q` becomes the path of `n_steps` steps that starts after `q * n_steps` draws. -/
theorem simulate_paths_rows_entries (m : Libm α) (norm : G → α × G) (S0 drift diffusion : α)
    (n_steps : Int) (N : Nat) (k : Nat) (path : Nat) (rng : G) (paths : List (List α))
    (hk : path + k = N) (hlen : paths.length = N)
    (hrow : ∀ (i : Nat) (row : List α), paths[i]? = some row →
      row.length = n_steps.toNat + 1) :
    (simulate_paths_rows m norm S0 drift diffusion n_steps k path rng paths).2
      = rng_after norm rng (k * n_steps.toNat)
    ∧ (∀ i : Nat, i < path →
        (simulate_paths_rows m norm S0 drift diffusion n_steps k path rng paths).1[i]?
          = paths[i]?)
    ∧ ∀ q : Nat, q < k →
        ∃ row : List α,
          (simulate_paths_rows m norm S0 drift diffusion n_steps k path rng paths).1[path + q]?
            = some row
          ∧ row.length = n_steps.toNat + 1
          ∧ ∀ j : Nat, j ≤ n_steps.toNat →
              row[j]? = some (path_price m norm drift diffusion S0
                (rng_after norm rng (q * n_steps.toNat)) j) := by
  induction k generalizing path rng paths with
  | zero =>
    refine ⟨by simp [simulate_paths_rows, rng_after], fun i _ => rfl, fun q hq => ?_⟩
    omega
  | succ k ih =>
    simp only [simulate_paths_rows]
    have hpath : path < paths.length := by omega
    have hget : paths[path]? = some (paths.getD path []) := by
      rw [List.getD_eq_getElem?_getD, List.getElem?_eq_getElem hpath]
      rfl
    have hL0 : (paths.getD path []).length = n_steps.toNat + 1 := hrow path _ hget
    obtain ⟨hs1, hs2, hs3⟩ := simulate_paths_steps_entries m norm drift diffusion
      n_steps.toNat 1 rng S0 ((paths.getD path []).set 0 S0)
      (by rw [List.length_set, hL0]; omega)
    have hrow' : ∀ (i : Nat) (row : List α),
        (paths.set path (simulate_paths_steps m norm drift diffusion n_steps.toNat 1 rng S0
          ((paths.getD path []).set 0 S0)).1)[i]? = some row →
        row.length = n_steps.toNat + 1 := by
      intro i row hi
      by_cases hpi : path = i
      · subst hpi
        rw [List.getElem?_set_self hpath] at hi
        cases hi
        rw [hs2, List.length_set, hL0]
      · rw [List.getElem?_set_ne hpi] at hi
        exact hrow i row hi
    obtain ⟨h1, h2, h3⟩ := ih (path + 1) _ _ (by omega) (by rw [List.length_set, hlen]) hrow'
    refine ⟨?_, fun i hi => ?_, fun q hq => ?_⟩
    · rw [h1, hs1, rng_after_add, Nat.succ_mul, Nat.add_comm]
    · rw [h2 i (by omega), List.getElem?_set_ne (by omega)]
    · rcases Nat.eq_zero_or_pos q with hq0 | hq0
      · subst hq0
        refine ⟨(simulate_paths_steps m norm drift diffusion n_steps.toNat 1 rng S0
          ((paths.getD path []).set 0 S0)).1, ?_, ?_, fun j hj => ?_⟩
        · have hh := h2 path (by omega)
          rw [List.getElem?_set_self hpath] at hh
          exact hh
        · rw [hs2, List.length_set, hL0]
        · rw [hs3 j]
          rcases Nat.eq_zero_or_pos j with hj0 | hj0
          · subst hj0
            have hc : ¬ (1 ≤ 0 ∧ 0 < 1 + n_steps.toNat) := by omega
            simp only [hc, if_false]
            rw [List.getElem?_set_self (by omega)]
            simp [path_price, rng_after]
          · have hc : 1 ≤ j ∧ j < 1 + n_steps.toNat := by omega
            simp only [hc, and_self, if_true]
            have e : j - 1 + 1 = j := by omega
            rw [e]
            simp [rng_after]
      · obtain ⟨row, hr1, hr2, hr3⟩ := h3 (q - 1) (by omega)
        have e1 : path + 1 + (q - 1) = path + q := by omega
        rw [e1] at hr1
        refine ⟨row, hr1, hr2, fun j hj => ?_⟩
        rw [hr3 j hj, hs1, rng_after_add]
        have e2 : n_steps.toNat + (q - 1) * n_steps.toNat = q * n_steps.toNat := by
          have e3 : q = (q - 1) + 1 := by omega
          conv_rhs => rw [e3, Nat.succ_mul]
          omega
        rw [e2]

/-- With a positive `exp`, every price of a path that starts at a positive price is
positive. -/
theorem path_price_pos (m : Libm α) (norm : G → α × G) (drift diffusion S0 : α) (rng : G)
    (hexp : ∀ x, 0 < m.exp x) (hS0 : 0 < S0) (k : Nat) :
    0 < path_price m norm drift diffusion S0 rng k := by
  induction k with
  | zero => exact hS0
  | succ k ih => exact mul_pos ih (hexp _)

end MonteCarloEngine

namespace MonteCarloEngine

variable {α : Type} [LinearOrderedField α] {G : Type}

/-- What `simulate_paths` returns for `n_steps ≥ 0` and `n_paths ≥ 0`: it makes
`n_paths * n_steps` draws, and row `p` holds the prices `S_0, ..., S_{n_steps}` of the path
that starts after `p * n_steps` draws. -/
theorem simulate_paths_eq (m : Libm α) (norm : G → α × G) (S0 mu sigma T : α)
    (n_steps n_paths : Int) (rng : G) (hsteps : 0 ≤ n_steps) :
    (simulate_paths m norm S0 mu sigma T n_steps n_paths rng).2
      = rng_after norm rng (n_paths.toNat * n_steps.toNat)
    ∧ ∀ p : Nat, p < n_paths.toNat →
        ∃ row : List α,
          (simulate_paths m norm S0 mu sigma T n_steps n_paths rng).1[p]? = some row
          ∧ row.length = n_steps.toNat + 1
          ∧ ∀ j : Nat, j ≤ n_steps.toNat →
              row[j]? = some (path_price m norm
                ((mu - 0.5 * sigma * sigma) * (T / (n_steps : α)))
                (sigma * m.sqrt (T / (n_steps : α))) S0
                (rng_after norm rng (p * n_steps.toNat)) j) := by
  have h := simulate_paths_rows_entries m norm S0
    ((mu - 0.5 * sigma * sigma) * (T / (n_steps : α))) (sigma * m.sqrt (T / (n_steps : α)))
    n_steps n_paths.toNat n_paths.toNat 0 rng
    (List.replicate n_paths.toNat (List.replicate (n_steps + 1).toNat 0))
    (by omega) (by simp)
    (fun i row hi => by
      rw [List.getElem?_replicate] at hi
      split at hi
      · cases hi
        rw [List.length_replicate]
        omega
      · cases hi)
  simp only [simulate_paths]
  refine ⟨h.1, fun p hp => ?_⟩
  obtain ⟨row, h1, h2, h3⟩ := h.2.2 p hp
  rw [Nat.zero_add] at h1
  exact ⟨row, h1, h2, h3⟩

/-- C16: for every row `p` and every column `k + 1` with `0 ≤ k < n_steps` of the matrix
returned by `simulate_paths`, the entry is the entry of column `k` of the same row times
`exp((mu - sigma^2/2)*dt + sigma*sqrt(dt)*z)` with `dt = T / n_steps` and `z` the draw number
`p * n_steps + k + 1` of the call; consequently, when `exp` is positive (as the real one is)
and `S0 > 0`, every entry of the row is strictly positive. -/
theorem simulate_paths_recurrence (m : Libm α) (norm : G → α × G) (S0 mu sigma T : α)
    (n_steps n_paths : Int) (rng : G) (p : Nat) (hsteps : 0 ≤ n_steps)
    (hp : (p : Int) < n_paths) :
    ∃ row : List α,
      (simulate_paths m norm S0 mu sigma T n_steps n_paths rng).1[p]? = some row
      ∧ (∀ k : Nat, (k : Int) < n_steps →
          ∃ prev : α, row[k]? = some prev
            ∧ row[k + 1]? = some (prev * m.exp ((mu - 0.5 * sigma * sigma) * (T / (n_steps : α))
                + sigma * m.sqrt (T / (n_steps : α))
                  * draw_at norm rng (p * n_steps.toNat + k))))
      ∧ ((∀ x, 0 < m.exp x) → 0 < S0 → ∀ x ∈ row, 0 < x) := by
  obtain ⟨row, h1, h2, h3⟩ := (simulate_paths_eq m norm S0 mu sigma T n_steps n_paths rng
    hsteps).2 p (by omega)
  refine ⟨row, h1, fun k hk => ?_, fun hexp hS0 x hx => ?_⟩
  · refine ⟨_, h3 k (by omega), ?_⟩
    rw [h3 (k + 1) (by omega), path_price, draw_at_rng_after]
  · obtain ⟨j, hj⟩ := List.mem_iff_getElem?.mp hx
    have hjlt : j < row.length := (List.getElem?_eq_some_iff.mp hj).1
    rw [h3 j (by omega)] at hj
    cases hj
    exact path_price_pos m norm _ _ S0 _ hexp hS0 j

/-- Witness for C16: row 2 of the 5 x 11 matrix for S0 = 100, mu = 0.05, sigma = 0.2, T = 1
on the real functions, with the draws 0, 1, 2, ...; all its entries are positive. -/
theorem simulate_paths_recurrence_witness :
    ∃ row : List ℝ,
      (simulate_paths realLibm (fun g : Nat => ((g : ℝ), g + 1)) 100 0.05 0.2 1 10 5 0).1[2]?
        = some row
      ∧ ∀ x ∈ row, 0 < x := by
  obtain ⟨row, h1, _, h3⟩ := simulate_paths_recurrence realLibm
    (fun g : Nat => ((g : ℝ), g + 1)) 100 0.05 0.2 1 10 5 0 2 (by decide) (by decide)
  exact ⟨row, h1, h3 (fun x => Real.exp_pos x) (by norm_num)⟩

end MonteCarloEngine

namespace MonteCarloEngine

variable {α : Type} [LinearOrderedField α] {G : Type}

/-- A barrier path never draws more than `n_steps` times, and draws at least once when
`n_steps ≥ 1`. -/
theorem barrier_draws_bounds (m : Libm α) (norm : G → α × G) (S0 B drift diffusion : α)
    (is_down_and_out : Bool) (n_steps : Nat) (rng : G) :
    barrier_draws m norm S0 B drift diffusion is_down_and_out n_steps rng ≤ n_steps
    ∧ (1 ≤ n_steps →
        1 ≤ barrier_draws m norm S0 B drift diffusion is_down_and_out n_steps rng) := by
  simp only [barrier_draws]
  cases hk : knock_out_step m norm S0 B drift diffusion is_down_and_out n_steps rng with
  | none => exact ⟨le_refl _, fun h => h⟩
  | some j =>
    have hj := (List.find?_range_eq_some.mp hk).2.1
    rw [List.mem_range] at hj
    exact ⟨hj, fun _ => Nat.succ_le_succ (Nat.zero_le j)⟩

/-- A path whose first breach is at step `k` draws exactly `k` times. -/
theorem barrier_draws_of_first_breach (m : Libm α) (norm : G → α × G)
    (S0 B drift diffusion : α) (is_down_and_out : Bool) (n_steps : Nat) (rng : G) (k : Nat)
    (h1 : 1 ≤ k) (h2 : k ≤ n_steps)
    (hb : barrier_breached B is_down_and_out (path_price m norm drift diffusion S0 rng k)
      = true)
    (hmin : ∀ j, 1 ≤ j → j < k →
      barrier_breached B is_down_and_out (path_price m norm drift diffusion S0 rng j)
        = false) :
    barrier_draws m norm S0 B drift diffusion is_down_and_out n_steps rng = k := by
  have hk : knock_out_step m norm S0 B drift diffusion is_down_and_out n_steps rng
      = some (k - 1) := by
    simp only [knock_out_step]
    rw [List.find?_range_eq_some]
    refine ⟨?_, ?_, fun j hj => ?_⟩
    · rw [Nat.sub_add_cancel h1]
      exact hb
    · rw [List.mem_range]
      omega
    · rw [hmin (j + 1) (by omega) (by omega)]
      rfl
  simp only [barrier_draws, hk]
  omega

/-- A path that never breaches the barrier draws exactly `n_steps` times. -/
theorem barrier_draws_of_no_breach (m : Libm α) (norm : G → α × G)
    (S0 B drift diffusion : α) (is_down_and_out : Bool) (n_steps : Nat) (rng : G)
    (h : ∀ k, 1 ≤ k → k ≤ n_steps →
      barrier_breached B is_down_and_out (path_price m norm drift diffusion S0 rng k)
        = false) :
    barrier_draws m norm S0 B drift diffusion is_down_and_out n_steps rng = n_steps := by
  have hk : knock_out_step m norm S0 B drift diffusion is_down_and_out n_steps rng = none := by
    simp only [knock_out_step]
    rw [List.find?_range_eq_none]
    intro i hi
    rw [h (i + 1) (by omega) (by omega)]
    rfl
  simp only [barrier_draws, hk]

/-- The state in which barrier path `p` starts is the state after the draws of the paths
before it. -/
theorem barrier_path_start_eq (m : Libm α) (norm : G → α × G) (S0 B drift diffusion : α)
    (is_down_and_out : Bool) (n_steps : Nat) (rng : G) (p : Nat) :
    barrier_path_start m norm S0 B drift diffusion is_down_and_out n_steps rng p
      = rng_after norm rng (∑ q in Finset.range p,
          barrier_draws m norm S0 B drift diffusion is_down_and_out n_steps
            (barrier_path_start m norm S0 B drift diffusion is_down_and_out n_steps rng q)) := by
  induction p with
  | zero => simp [barrier_path_start, rng_after]
  | succ p ih =>
    rw [Finset.sum_range_succ, ← rng_after_add, ← ih]
    simp only [barrier_path_start, Function.iterate_succ_apply']

/-- Each barrier path starts where the path before it stopped drawing. -/
theorem barrier_path_start_succ (m : Libm α) (norm : G → α × G) (S0 B drift diffusion : α)
    (is_down_and_out : Bool) (n_steps : Nat) (rng : G) (p : Nat) :
    barrier_path_start m norm S0 B drift diffusion is_down_and_out n_steps rng (p + 1)
      = rng_after norm
          (barrier_path_start m norm S0 B drift diffusion is_down_and_out n_steps rng p)
          (barrier_draws m norm S0 B drift diffusion is_down_and_out n_steps
            (barrier_path_start m norm S0 B drift diffusion is_down_and_out n_steps rng p)) := by
  simp only [barrier_path_start, Function.iterate_succ_apply']

/-- The total number of draws of `p` barrier paths lies between `p` (when `n_steps ≥ 1`) and
`n_steps * p`. -/
theorem barrier_total_draws_bounds (m : Libm α) (norm : G → α × G)
    (S0 B drift diffusion : α) (is_down_and_out : Bool) (n_steps : Nat) (rng : G) (p : Nat) :
    (∑ q in Finset.range p,
        barrier_draws m norm S0 B drift diffusion is_down_and_out n_steps
          (barrier_path_start m norm S0 B drift diffusion is_down_and_out n_steps rng q))
      ≤ n_steps * p
    ∧ (1 ≤ n_steps →
        p ≤ ∑ q in Finset.range p,
          barrier_draws m norm S0 B drift diffusion is_down_and_out n_steps
            (barrier_path_start m norm S0 B drift diffusion is_down_and_out n_steps rng q)) := by
  induction p with
  | zero => simp
  | succ p ih =>
    rw [Finset.sum_range_succ]
    have hb := barrier_draws_bounds m norm S0 B drift diffusion is_down_and_out n_steps
      (barrier_path_start m norm S0 B drift diffusion is_down_and_out n_steps rng p)
    refine ⟨?_, fun h => ?_⟩
    · have := ih.1
      rw [Nat.mul_succ]
      omega
    · have := ih.2 h
      have := hb.2 h
      omega

/-- When no path is knocked out, `p` barrier paths draw exactly `n_steps * p` times. -/
theorem barrier_total_draws_of_no_breach (m : Libm α) (norm : G → α × G)
    (S0 B drift diffusion : α) (is_down_and_out : Bool) (n_steps : Nat) (rng : G) (p : Nat)
    (h : ∀ q, q < p → ∀ k, 1 ≤ k → k ≤ n_steps →
      barrier_breached B is_down_and_out (path_price m norm drift diffusion S0
        (barrier_path_start m norm S0 B drift diffusion is_down_and_out n_steps rng q) k)
        = false) :
    (∑ q in Finset.range p,
        barrier_draws m norm S0 B drift diffusion is_down_and_out n_steps
          (barrier_path_start m norm S0 B drift diffusion is_down_and_out n_steps rng q))
      = n_steps * p := by
  induction p with
  | zero => simp
  | succ p ih =>
    rw [Finset.sum_range_succ, ih (fun q hq => h q (by omega)),
      barrier_draws_of_no_breach m norm S0 B drift diffusion is_down_and_out n_steps _
        (h p (by omega)), Nat.mul_succ]

/-- The state in which `price_barrier` leaves the generator. -/
theorem price_barrier_state (m : Libm α) (norm : G → α × G) (S0 K B T r sigma : α)
    (is_call is_down_and_out : Bool) (n_steps n_paths : Int) (rng : G) :
    (price_barrier m norm S0 K B T r sigma is_call is_down_and_out n_steps n_paths rng).2
      = barrier_path_start m norm S0 B ((r - 0.5 * sigma * sigma) * (T / (n_steps : α)))
          (sigma * m.sqrt (T / (n_steps : α))) is_down_and_out n_steps.toNat rng
          n_paths.toNat := by
  simp only [price_barrier, price_barrier_paths_eq]

end MonteCarloEngine

namespace MonteCarloEngine

variable {α : Type} [LinearOrderedField α] {G : Type}

/-- C18: early stop in `price_barrier`. A path whose first barrier breach is at step `k`
(`1 ≤ k ≤ n_steps`) consumes exactly `k` draws, a surviving path consumes exactly `n_steps`
draws, and the next path starts from the draw immediately after; hence one call consumes at
most `n_steps * n_paths` draws, and exactly `n_steps * n_paths` when no path is knocked out,
for example for a down-and-out barrier `B ≤ 0` with `S0 > 0` (and a positive `exp`). -/
theorem price_barrier_draw_count (m : Libm α) (norm : G → α × G) (S0 K B T r sigma : α)
    (is_call is_down_and_out : Bool) (n_steps n_paths : Int) (rng : G) :
    (∀ (drift diffusion : α) (g : G) (k : Nat), 1 ≤ k → k ≤ n_steps.toNat →
        barrier_breached B is_down_and_out (path_price m norm drift diffusion S0 g k) = true →
        (∀ j, 1 ≤ j → j < k →
          barrier_breached B is_down_and_out (path_price m norm drift diffusion S0 g j)
            = false) →
        barrier_draws m norm S0 B drift diffusion is_down_and_out n_steps.toNat g = k)
    ∧ (∀ (drift diffusion : α) (g : G),
        (∀ k, 1 ≤ k → k ≤ n_steps.toNat →
          barrier_breached B is_down_and_out (path_price m norm drift diffusion S0 g k)
            = false) →
        barrier_draws m norm S0 B drift diffusion is_down_and_out n_steps.toNat g
          = n_steps.toNat)
    ∧ (∀ (drift diffusion : α) (g : G) (p : Nat),
        barrier_path_start m norm S0 B drift diffusion is_down_and_out n_steps.toNat g (p + 1)
          = rng_after norm
              (barrier_path_start m norm S0 B drift diffusion is_down_and_out n_steps.toNat g p)
              (barrier_draws m norm S0 B drift diffusion is_down_and_out n_steps.toNat
                (barrier_path_start m norm S0 B drift diffusion is_down_and_out
                  n_steps.toNat g p)))
    ∧ (price_barrier m norm S0 K B T r sigma is_call is_down_and_out n_steps n_paths rng).2
        = rng_after norm rng (∑ p in Finset.range n_paths.toNat,
            barrier_draws m norm S0 B ((r - 0.5 * sigma * sigma) * (T / (n_steps : α)))
              (sigma * m.sqrt (T / (n_steps : α))) is_down_and_out n_steps.toNat
              (barrier_path_start m norm S0 B
                ((r - 0.5 * sigma * sigma) * (T / (n_steps : α)))
                (sigma * m.sqrt (T / (n_steps : α))) is_down_and_out n_steps.toNat rng p))
    ∧ (∑ p in Finset.range n_paths.toNat,
          barrier_draws m norm S0 B ((r - 0.5 * sigma * sigma) * (T / (n_steps : α)))
            (sigma * m.sqrt (T / (n_steps : α))) is_down_and_out n_steps.toNat
            (barrier_path_start m norm S0 B
              ((r - 0.5 * sigma * sigma) * (T / (n_steps : α)))
              (sigma * m.sqrt (T / (n_steps : α))) is_down_and_out n_steps.toNat rng p))
        ≤ n_steps.toNat * n_paths.toNat
    ∧ ((∀ p, p < n_paths.toNat → ∀ k, 1 ≤ k → k ≤ n_steps.toNat →
          barrier_breached B is_down_and_out
            (path_price m norm ((r - 0.5 * sigma * sigma) * (T / (n_steps : α)))
              (sigma * m.sqrt (T / (n_steps : α))) S0
              (barrier_path_start m norm S0 B
                ((r - 0.5 * sigma * sigma) * (T / (n_steps : α)))
                (sigma * m.sqrt (T / (n_steps : α))) is_down_and_out n_steps.toNat rng p) k)
            = false) →
        (∑ p in Finset.range n_paths.toNat,
          barrier_draws m norm S0 B ((r - 0.5 * sigma * sigma) * (T / (n_steps : α)))
            (sigma * m.sqrt (T / (n_steps : α))) is_down_and_out n_steps.toNat
            (barrier_path_start m norm S0 B
              ((r - 0.5 * sigma * sigma) * (T / (n_steps : α)))
              (sigma * m.sqrt (T / (n_steps : α))) is_down_and_out n_steps.toNat rng p))
          = n_steps.toNat * n_paths.toNat)
    ∧ ((∀ x, 0 < m.exp x) → is_down_and_out = true → B ≤ 0 → 0 < S0 →
        (∑ p in Finset.range n_paths.toNat,
          barrier_draws m norm S0 B ((r - 0.5 * sigma * sigma) * (T / (n_steps : α)))
            (sigma * m.sqrt (T / (n_steps : α))) is_down_and_out n_steps.toNat
            (barrier_path_start m norm S0 B
              ((r - 0.5 * sigma * sigma) * (T / (n_steps : α)))
              (sigma * m.sqrt (T / (n_steps : α))) is_down_and_out n_steps.toNat rng p))
          = n_steps.toNat * n_paths.toNat) := by
  refine ⟨?_, ?_, ?_, ?_, ?_, ?_, ?_⟩
  · intro drift diffusion g k h1 h2 hb hmin
    exact barrier_draws_of_first_breach m norm S0 B drift diffusion is_down_and_out _ g k h1 h2
      hb hmin
  · intro drift diffusion g h
    exact barrier_draws_of_no_breach m norm S0 B drift diffusion is_down_and_out _ g h
  · intro drift diffusion g p
    exact barrier_path_start_succ m norm S0 B drift diffusion is_down_and_out _ g p
  · rw [price_barrier_state, barrier_path_start_eq]
  · exact (barrier_total_draws_bounds m norm S0 B _ _ is_down_and_out _ rng _).1
  · intro h
    exact barrier_total_draws_of_no_breach m norm S0 B _ _ is_down_and_out _ rng _ h
  · intro hexp hdao hB hS0
    apply barrier_total_draws_of_no_breach
    intro q _ k _ _
    have hpos := path_price_pos m norm ((r - 0.5 * sigma * sigma) * (T / (n_steps : α)))
      (sigma * m.sqrt (T / (n_steps : α))) S0
      (barrier_path_start m norm S0 B ((r - 0.5 * sigma * sigma) * (T / (n_steps : α)))
        (sigma * m.sqrt (T / (n_steps : α))) is_down_and_out n_steps.toNat rng q) hexp hS0 k
    have hnot : ¬ (path_price m norm ((r - 0.5 * sigma * sigma) * (T / (n_steps : α)))
      (sigma * m.sqrt (T / (n_steps : α))) S0
      (barrier_path_start m norm S0 B ((r - 0.5 * sigma * sigma) * (T / (n_steps : α)))
        (sigma * m.sqrt (T / (n_steps : α))) is_down_and_out n_steps.toNat rng q) k ≤ B) :=
      not_le.mpr (lt_of_le_of_lt hB hpos)
    subst hdao
    simp [barrier_breached, hnot]

end MonteCarloEngine

namespace MonteCarloEngine

variable {α : Type} [LinearOrderedField α] {G : Type}

/-- C12 (counterexample): `price_european` with `n_paths = 1` runs its loop `1 / 2 = 0`
times. On a generator whose state counts the draws made, the call leaves the state at 0:
it has consumed no draw, and the state is not ahead of the state before the call. -/
theorem price_european_single_path_no_draw :
    (0 : Int) < 1
    ∧ (price_european realLibm (fun g : Nat => ((g : ℝ), g + 1)) 100 100 1 0.05 0.2 true 1 0).2
      = 0
    ∧ ¬ ∃ k : Nat, 1 ≤ k
        ∧ (price_european realLibm (fun g : Nat => ((g : ℝ), g + 1)) 100 100 1 0.05 0.2 true
            1 0).2
          = rng_after (fun g : Nat => ((g : ℝ), g + 1)) 0 k := by
  have h : (price_european realLibm (fun g : Nat => ((g : ℝ), g + 1)) 100 100 1 0.05 0.2 true
      1 0).2 = 0 := by
    rw [price_european_eq]
    rfl
  refine ⟨by decide, h, ?_⟩
  rintro ⟨k, hk, he⟩
  rw [h, rng_after_counter] at he
  omega

/-- C12 (as amended): for positive `n_steps` and `n_paths` and every generator state,
`price_european` consumes exactly `n_paths / 2` draws (truncating division), which is at
least one draw when `n_paths ≥ 2`; `price_asian` and `simulate_paths` consume exactly
`n_paths * n_steps ≥ 1` draws; and `price_barrier` consumes at least `n_paths` and at most
`n_steps * n_paths` draws. -/
theorem stream_advance (m : Libm α) (norm : G → α × G) (S0 K B T r sigma mu : α)
    (is_call is_down_and_out : Bool) (n_steps n_paths : Int) (rng : G)
    (hsteps : 0 < n_steps) (hpaths : 0 < n_paths) :
    ((price_european m norm S0 K T r sigma is_call n_paths rng).2
        = rng_after norm rng (Int.tdiv n_paths 2).toNat
      ∧ (2 ≤ n_paths → 1 ≤ (Int.tdiv n_paths 2).toNat))
    ∧ ((price_asian m norm S0 K T r sigma is_call n_steps n_paths rng).2
        = rng_after norm rng (n_paths.toNat * n_steps.toNat)
      ∧ (simulate_paths m norm S0 mu sigma T n_steps n_paths rng).2
        = rng_after norm rng (n_paths.toNat * n_steps.toNat)
      ∧ 1 ≤ n_paths.toNat * n_steps.toNat)
    ∧ ∃ k : Nat, n_paths.toNat ≤ k ∧ 1 ≤ k ∧ k ≤ n_steps.toNat * n_paths.toNat
        ∧ (price_barrier m norm S0 K B T r sigma is_call is_down_and_out n_steps n_paths
            rng).2 = rng_after norm rng k := by
  have hn : 1 ≤ n_steps.toNat := by omega
  have hN : 1 ≤ n_paths.toNat := by omega
  refine ⟨⟨?_, fun h2 => ?_⟩, ⟨?_, ?_, Nat.mul_pos hN hn⟩, ?_⟩
  · rw [price_european_eq]
  · rw [Int.tdiv_eq_ediv (by omega) (by omega)]
    omega
  · simp only [price_asian, price_asian_paths_eq]
  · exact (simulate_paths_eq m norm S0 mu sigma T n_steps n_paths rng (by omega)).1
  · have hb := barrier_total_draws_bounds m norm S0 B
      ((r - 0.5 * sigma * sigma) * (T / (n_steps : α))) (sigma * m.sqrt (T / (n_steps : α)))
      is_down_and_out n_steps.toNat rng n_paths.toNat
    refine ⟨_, hb.2 hn, le_trans hN (hb.2 hn), hb.1, ?_⟩
    rw [price_barrier_state, barrier_path_start_eq]

/-- Witness for C12 (as amended): `n_steps = 10`, `n_paths = 5` on the real functions with a
generator whose state counts the draws made: `price_european` leaves it 2 draws ahead,
`price_asian` and `simulate_paths` 50 draws ahead. -/
theorem stream_advance_witness :
    (price_european realLibm (fun g : Nat => ((g : ℝ), g + 1)) 100 100 1 0.05 0.2 true 5 0).2
      = 2
    ∧ (price_asian realLibm (fun g : Nat => ((g : ℝ), g + 1)) 100 100 1 0.05 0.2 true 10 5
        0).2 = 50
    ∧ (simulate_paths realLibm (fun g : Nat => ((g : ℝ), g + 1)) 100 0.3 0.2 1 10 5 0).2
      = 50 := by
  obtain ⟨⟨h1, _⟩, ⟨h2, h3, _⟩, _⟩ := stream_advance realLibm
    (fun g : Nat => ((g : ℝ), g + 1)) 100 100 90 1 0.05 0.2 0.3 true true 10 5 0
    (by decide) (by decide)
  rw [rng_after_counter] at h1 h2 h3
  exact ⟨h1, h2, h3⟩

end MonteCarloEngine

namespace BlackScholesEngine

variable {α : Type} [LinearOrderedField α]

/-- The clamping of line 115 puts any number into [0.001, 5]. -/
theorem clamp_bounds (x : α) :
    (0.001 : α) ≤ max 0.001 (min x 5.0) ∧ max 0.001 (min x 5.0) ≤ (5 : α) := by
  refine ⟨le_max_left _ _, max_le (by norm_num) ?_⟩
  exact le_trans (min_le_right _ _) (by norm_num)

/-- The values of `sigma` during a run of the loop of `implied_volatility`: the value at
entry, then at most `fuel` updated values, each in [0.001, 5], the last of all being the
value with which the loop is left. -/
theorem implied_volatility_sigmas_spec (m : Libm α) (option_price S K T r : α)
    (is_call : Bool) (fuel : Nat) (sigma : α) :
    ∃ updates : List α,
      implied_volatility_sigmas m option_price S K T r is_call fuel sigma = sigma :: updates
      ∧ updates.length ≤ fuel
      ∧ (∀ s ∈ updates, 0.001 ≤ s ∧ s ≤ 5)
      ∧ (sigma :: updates).getLast?
          = some (implied_volatility_search m option_price S K T r is_call fuel sigma).2 := by
  induction fuel generalizing sigma with
  | zero => exact ⟨[], rfl, le_refl _, by simp, rfl⟩
  | succ fuel ih =>
    by_cases hv : |vega m S K T r sigma| < 1e-10
    · refine ⟨[], ?_, Nat.zero_le _, by simp, ?_⟩
      · simp only [implied_volatility_sigmas, hv, if_true]
      · rw [implied_volatility_search_of_degenerate m option_price S K T r is_call fuel sigma hv]
        rfl
    · by_cases hd : |option_price - (if is_call then call_price m S K T r sigma
          else put_price m S K T r sigma)| < 1e-6
      · refine ⟨[], ?_, Nat.zero_le _, by simp, ?_⟩
        · simp only [implied_volatility_sigmas, hv, hd, if_true, if_false]
        · rw [implied_volatility_search_of_converged m option_price S K T r is_call fuel sigma
            hv hd]
          rfl
      · obtain ⟨ups, h1, h2, h3, h4⟩ := ih (max 0.001 (min (sigma + (option_price - (if is_call
            then call_price m S K T r sigma else put_price m S K T r sigma))
              / vega m S K T r sigma) 5.0))
        refine ⟨max 0.001 (min (sigma + (option_price - (if is_call
            then call_price m S K T r sigma else put_price m S K T r sigma))
              / vega m S K T r sigma) 5.0) :: ups, ?_, ?_, ?_, ?_⟩
        · simp only [implied_volatility_sigmas, hv, hd, if_false]
          rw [h1]
        · simp only [List.length_cons]
          omega
        · intro s hs
          rcases List.mem_cons.mp hs with h | h
          · rw [h]
            exact clamp_bounds _
          · exact h3 s h
        · rw [List.getLast?_cons_cons, h4]
          simp only [implied_volatility_search, hv, hd, if_false]

/-- C17: clamping in `implied_volatility`. For every input, the successive values of `sigma`
are the initial guess followed by at most 100 updated values, each of which lies in
[0.001, 5.0]; the value returned is the last of them, so it either equals `initial_guess`
(no update was performed) or lies in [0.001, 5.0]. -/
theorem implied_volatility_clamped (m : Libm α) (option_price S K T r : α) (is_call : Bool)
    (initial_guess : α) :
    ∃ updates : List α,
      implied_volatility_sigmas m option_price S K T r is_call 100 initial_guess
        = initial_guess :: updates
      ∧ updates.length ≤ 100
      ∧ (∀ s ∈ updates, 0.001 ≤ s ∧ s ≤ 5)
      ∧ (initial_guess :: updates).getLast?
          = some (implied_volatility m option_price S K T r is_call initial_guess)
      ∧ (implied_volatility m option_price S K T r is_call initial_guess = initial_guess
        ∨ (0.001 ≤ implied_volatility m option_price S K T r is_call initial_guess
          ∧ implied_volatility m option_price S K T r is_call initial_guess ≤ 5)) := by
  obtain ⟨ups, h1, h2, h3, h4⟩ := implied_volatility_sigmas_spec m option_price S K T r
    is_call 100 initial_guess
  refine ⟨ups, h1, h2, h3, h4, ?_⟩
  have h5 : (initial_guess :: ups).getLast?
      = some (implied_volatility m option_price S K T r is_call initial_guess) := h4
  cases ups with
  | nil =>
    left
    simp only [List.getLast?_singleton, Option.some.injEq] at h5
    exact h5.symm
  | cons u us =>
    right
    rw [List.getLast?_cons_cons] at h5
    have hmem : implied_volatility m option_price S K T r is_call initial_guess ∈ u :: us :=
      List.mem_of_getLast?_eq_some h5
    exact h3 _ hmem

end BlackScholesEngine

namespace BlackScholesEngine

/-- Enclosure of a product whose first factor is nonnegative and second factor is
nonnegative. -/
theorem mul_enclosure_pos (h t lo hi tlo thi L U : ℝ) (hlo : 0 ≤ lo) (htlo : 0 ≤ tlo)
    (h1 : lo ≤ h) (h2 : h ≤ hi) (h3 : tlo ≤ t) (h4 : t ≤ thi)
    (hL : L ≤ lo * tlo) (hU : hi * thi ≤ U) : L ≤ h * t ∧ h * t ≤ U := by
  constructor
  · exact le_trans hL (mul_le_mul h1 h3 htlo (le_trans hlo h1))
  · exact le_trans (mul_le_mul h2 h4 (le_trans htlo h3) (le_trans hlo (le_trans h1 h2))) hU

/-- Enclosure of a product whose first factor is nonpositive and second factor is
nonnegative. -/
theorem mul_enclosure_neg (h t lo hi tlo thi L U : ℝ) (hhi : hi ≤ 0) (htlo : 0 ≤ tlo)
    (h1 : lo ≤ h) (h2 : h ≤ hi) (h3 : tlo ≤ t) (h4 : t ≤ thi)
    (hL : L ≤ lo * thi) (hU : hi * tlo ≤ U) : L ≤ h * t ∧ h * t ≤ U := by
  have ht0 : 0 ≤ t := le_trans htlo h3
  have hlo0 : lo ≤ 0 := le_trans (le_trans h1 h2) hhi
  constructor
  · nlinarith [mul_nonneg (sub_nonneg.mpr h1) ht0, mul_nonneg (neg_nonneg.mpr hlo0)
      (sub_nonneg.mpr h4)]
  · nlinarith [mul_nonneg (sub_nonneg.mpr h2) ht0, mul_nonneg (neg_nonneg.mpr hhi)
      (sub_nonneg.mpr h3)]

/-- Enclosure of the real exponential by its Taylor polynomial of degree 7. -/
theorem exp_taylor_enclosure (x lo hi : ℝ) (hx : |x| ≤ 1)
    (hlo : lo ≤ (∑ k in Finset.range 8, x ^ k / (k.factorial : ℝ))
      - |x| ^ 8 * (((8 : ℕ).succ : ℝ) / (((8 : ℕ).factorial : ℝ) * ((8 : ℕ) : ℝ))))
    (hhi : (∑ k in Finset.range 8, x ^ k / (k.factorial : ℝ))
      + |x| ^ 8 * (((8 : ℕ).succ : ℝ) / (((8 : ℕ).factorial : ℝ) * ((8 : ℕ) : ℝ))) ≤ hi) :
    lo ≤ Real.exp x ∧ Real.exp x ≤ hi := by
  have h := Real.exp_bound hx (n := 8) (by norm_num)
  rw [abs_le] at h
  constructor <;> linarith [h.1, h.2]

/-- Eight decimals of the square root of 2. -/
theorem sqrt_two_bounds : 1.41421356 < Real.sqrt 2 ∧ Real.sqrt 2 < 1.41421357 := by
  constructor
  · rw [Real.lt_sqrt (by norm_num)]
    norm_num
  · rw [Real.sqrt_lt' (by norm_num)]
    norm_num

/-- Interval evaluation of the expression `y` of `norm_cdf` by Horner steps, for a `t` at
which the innermost factor is negative and the other factors are positive. -/
theorem norm_cdf_poly_enclosure (t E tlo thi elo ehi l1 u1 l2 u2 l3 u3 l4 u4 l5 u5 wl wu : ℝ)
    (ht0 : 0 ≤ tlo) (ht : tlo ≤ t) (ht' : t ≤ thi)
    (hE0 : 0 ≤ elo) (hE : elo ≤ E) (hE' : E ≤ ehi)
    (c1 : l1 ≤ 1.061405429 * tlo + -1.453152027) (c1' : 1.061405429 * thi + -1.453152027 ≤ u1)
    (n1 : u1 ≤ 0)
    (c2 : l2 ≤ l1 * thi + 1.421413741) (c2' : u1 * tlo + 1.421413741 ≤ u2) (p2 : 0 ≤ l2)
    (c3 : l3 ≤ l2 * tlo + -0.284496736) (c3' : u2 * thi + -0.284496736 ≤ u3) (p3 : 0 ≤ l3)
    (c4 : l4 ≤ l3 * tlo + 0.254829592) (c4' : u3 * thi + 0.254829592 ≤ u4) (p4 : 0 ≤ l4)
    (c5 : l5 ≤ l4 * tlo) (c5' : u4 * thi ≤ u5) (p5 : 0 ≤ l5)
    (c6 : wl ≤ l5 * elo) (c6' : u5 * ehi ≤ wu) :
    wl ≤ (((((1.061405429 * t + -1.453152027) * t) + 1.421413741) * t + -0.284496736) * t
          + 0.254829592) * t * E
    ∧ (((((1.061405429 * t + -1.453152027) * t) + 1.421413741) * t + -0.284496736) * t
          + 0.254829592) * t * E ≤ wu := by
  have h1 : l1 ≤ 1.061405429 * t + -1.453152027 ∧ 1.061405429 * t + -1.453152027 ≤ u1 :=
    ⟨by linarith, by linarith⟩
  have m1 := mul_enclosure_neg _ t l1 u1 tlo thi (l1 * thi) (u1 * tlo) n1 ht0 h1.1 h1.2 ht ht'
    (le_refl _) (le_refl _)
  have h2 : l2 ≤ (1.061405429 * t + -1.453152027) * t + 1.421413741
      ∧ (1.061405429 * t + -1.453152027) * t + 1.421413741 ≤ u2 :=
    ⟨by linarith [m1.1], by linarith [m1.2]⟩
  have m2 := mul_enclosure_pos _ t l2 u2 tlo thi (l2 * tlo) (u2 * thi) p2 ht0 h2.1 h2.2 ht ht'
    (le_refl _) (le_refl _)
  have h3 : l3 ≤ ((1.061405429 * t + -1.453152027) * t + 1.421413741) * t + -0.284496736
      ∧ ((1.061405429 * t + -1.453152027) * t + 1.421413741) * t + -0.284496736 ≤ u3 :=
    ⟨by linarith [m2.1], by linarith [m2.2]⟩
  have m3 := mul_enclosure_pos _ t l3 u3 tlo thi (l3 * tlo) (u3 * thi) p3 ht0 h3.1 h3.2 ht ht'
    (le_refl _) (le_refl _)
  have h4 : l4 ≤ (((1.061405429 * t + -1.453152027) * t + 1.421413741) * t + -0.284496736) * t
        + 0.254829592
      ∧ (((1.061405429 * t + -1.453152027) * t + 1.421413741) * t + -0.284496736) * t
        + 0.254829592 ≤ u4 :=
    ⟨by linarith [m3.1], by linarith [m3.2]⟩
  have m4 := mul_enclosure_pos _ t l4 u4 tlo thi l5 u5 p4 ht0 h4.1 h4.2 ht ht' c5 c5'
  exact mul_enclosure_pos _ E l5 u5 elo ehi wl wu p5 hE0 m4.1 m4.2 hE hE' c6 c6'

/-- Enclosure of `x / sqrt 2` for `x ≥ 0`. -/
theorem div_sqrt_two_enclosure (x ulo uhi : ℝ) (hx : 0 ≤ x) (hulo : 0 ≤ ulo)
    (hu : ulo * 1.41421357 ≤ x) (hu' : x ≤ uhi * 1.41421356) :
    ulo ≤ x / Real.sqrt 2 ∧ x / Real.sqrt 2 ≤ uhi := by
  obtain ⟨hs1, hs2⟩ := sqrt_two_bounds
  have hs0 : 0 < Real.sqrt 2 := by linarith
  have huhi : 0 ≤ uhi := by linarith
  constructor
  · rw [le_div_iff₀ hs0]
    have := mul_le_mul_of_nonneg_left hs2.le hulo
    linarith
  · rw [div_le_iff₀ hs0]
    have := mul_le_mul_of_nonneg_left hs1.le huhi
    linarith

/-- Enclosure of the quantity `t = 1 / (1 + p * u)` of `norm_cdf` for `u ≥ 0`. -/
theorem norm_cdf_t_enclosure (u ulo uhi tlo thi : ℝ) (hulo : 0 ≤ ulo) (hu : ulo ≤ u)
    (hu' : u ≤ uhi) (ht0 : 0 ≤ tlo) (ht : tlo * (1 + 0.3275911 * uhi) ≤ 1)
    (ht' : 1 ≤ thi * (1 + 0.3275911 * ulo)) :
    tlo ≤ 1 / (1 + 0.3275911 * u) ∧ 1 / (1 + 0.3275911 * u) ≤ thi := by
  have hu0 : 0 ≤ u := le_trans hulo hu
  have hden : 0 < 1 + 0.3275911 * u := by positivity
  have hden' : 0 < 1 + 0.3275911 * ulo := by positivity
  have hthi : 0 ≤ thi := by
    by_contra hneg
    have : thi * (1 + 0.3275911 * ulo) < 0 := mul_neg_of_neg_of_pos (not_le.mp hneg) hden'
    linarith
  constructor
  · rw [le_div_iff₀ hden]
    have h1 : tlo * (1 + 0.3275911 * u) ≤ tlo * (1 + 0.3275911 * uhi) :=
      mul_le_mul_of_nonneg_left (by linarith) ht0
    linarith
  · rw [div_le_iff₀ hden]
    have h1 : thi * (1 + 0.3275911 * ulo) ≤ thi * (1 + 0.3275911 * u) :=
      mul_le_mul_of_nonneg_left (by linarith) hthi
    linarith

/-- The argument of `exp` in `norm_cdf` with the real square root is `-x^2/2`. -/
theorem norm_cdf_exp_arg (x : ℝ) :
    -(x / Real.sqrt 2) * (x / Real.sqrt 2) = -(x * x) / 2 := by
  have h2 : Real.sqrt 2 * Real.sqrt 2 = 2 := Real.mul_self_sqrt (by norm_num)
  have hs0 : Real.sqrt 2 ≠ 0 := by
    intro h
    rw [h] at h2
    norm_num at h2
  field_simp

/-- Interval evaluation of `norm_cdf` with the real functions at a point `x ≥ 0`, from
enclosures of `x / sqrt 2`, of `t`, of `exp(-x^2/2)` and of the Horner steps. -/
theorem norm_cdf_real_enclosure
    (x ulo uhi tlo thi elo ehi l1 u1 l2 u2 l3 u3 l4 u4 l5 u5 wl wu : ℝ)
    (hx : 0 ≤ x) (hulo : 0 ≤ ulo) (hu : ulo * 1.41421357 ≤ x) (hu' : x ≤ uhi * 1.41421356)
    (ht0 : 0 ≤ tlo) (ht : tlo * (1 + 0.3275911 * uhi) ≤ 1)
    (ht' : 1 ≤ thi * (1 + 0.3275911 * ulo))
    (hE0 : 0 ≤ elo) (hE : elo ≤ Real.exp (-(x * x) / 2)) (hE' : Real.exp (-(x * x) / 2) ≤ ehi)
    (c1 : l1 ≤ 1.061405429 * tlo + -1.453152027) (c1' : 1.061405429 * thi + -1.453152027 ≤ u1)
    (n1 : u1 ≤ 0)
    (c2 : l2 ≤ l1 * thi + 1.421413741) (c2' : u1 * tlo + 1.421413741 ≤ u2) (p2 : 0 ≤ l2)
    (c3 : l3 ≤ l2 * tlo + -0.284496736) (c3' : u2 * thi + -0.284496736 ≤ u3) (p3 : 0 ≤ l3)
    (c4 : l4 ≤ l3 * tlo + 0.254829592) (c4' : u3 * thi + 0.254829592 ≤ u4) (p4 : 0 ≤ l4)
    (c5 : l5 ≤ l4 * tlo) (c5' : u4 * thi ≤ u5) (p5 : 0 ≤ l5)
    (c6 : wl ≤ l5 * elo) (c6' : u5 * ehi ≤ wu) :
    1 - wu / 2 ≤ norm_cdf realLibm x ∧ norm_cdf realLibm x ≤ 1 - wl / 2 := by
  have hx' : ¬ x < 0 := not_lt.mpr hx
  obtain ⟨hu1, hu2⟩ := div_sqrt_two_enclosure x ulo uhi hx hulo hu hu'
  obtain ⟨ht1, ht2⟩ := norm_cdf_t_enclosure (x / Real.sqrt 2) ulo uhi tlo thi hulo hu1 hu2 ht0
    ht ht'
  obtain ⟨hw1, hw2⟩ := norm_cdf_poly_enclosure (1 / (1 + 0.3275911 * (x / Real.sqrt 2)))
    (Real.exp (-(x * x) / 2)) tlo thi elo ehi
    l1 u1 l2 u2 l3 u3 l4 u4 l5 u5 wl wu ht0 ht1 ht2 hE0 hE hE' c1 c1' n1 c2 c2' p2 c3 c3' p3
    c4 c4' p4 c5 c5' p5 c6 c6'
  simp only [norm_cdf, realLibm, hx', if_false, abs_of_nonneg hx, norm_cdf_exp_arg]
  constructor
  · linarith only [hw2]
  · linarith only [hw1]

end BlackScholesEngine

namespace BlackScholesEngine

/-- Enclosure of `norm_cdf 0.35` with the real functions. -/
theorem norm_cdf_real_at_035 :
    0.6368305854 ≤ norm_cdf realLibm 0.35 ∧ norm_cdf realLibm 0.35 ≤ 0.6368305863 := by
  have hE : 0.940588063364 ≤ Real.exp (-(0.35 * 0.35) / 2)
      ∧ Real.exp (-(0.35 * 0.35) / 2) ≤ 0.940588063365 := by
    apply exp_taylor_enclosure
    · rw [abs_le]; constructor <;> norm_num
    · simp only [Finset.sum_range_succ, Finset.sum_range_zero, Nat.factorial]
      rw [abs_of_neg (by norm_num)]
      norm_num
    · simp only [Finset.sum_range_succ, Finset.sum_range_zero, Nat.factorial]
      rw [abs_of_neg (by norm_num)]
      norm_num
  obtain ⟨h1, h2⟩ := norm_cdf_real_enclosure 0.35 0.24748737208 0.247487373831
    0.925005493189 0.925005493681 0.940588063364 0.940588063365
    (-0.471346174675) (-0.471346174152) 0.98541594 0.985415940716
    0.627018421576 0.627018422724 0.834825076288 0.834825077659
    0.772217781418 0.772217783098 0.726338827519 0.726338829101
    (by norm_num) (by norm_num) (by norm_num) (by norm_num) (by norm_num) (by norm_num)
    (by norm_num) (by norm_num) hE.1 hE.2
    (by norm_num) (by norm_num) (by norm_num) (by norm_num) (by norm_num) (by norm_num)
    (by norm_num) (by norm_num) (by norm_num) (by norm_num) (by norm_num) (by norm_num)
    (by norm_num) (by norm_num) (by norm_num) (by norm_num) (by norm_num)
  constructor
  · linarith only [h1]
  · linarith only [h2]

/-- Enclosure of `norm_cdf 0.15` with the real functions. -/
theorem norm_cdf_real_at_015 :
    0.5596177092 ≤ norm_cdf realLibm 0.15 ∧ norm_cdf realLibm 0.15 ≤ 0.5596177098 := by
  have hE : 0.988813044611 ≤ Real.exp (-(0.15 * 0.15) / 2)
      ∧ Real.exp (-(0.15 * 0.15) / 2) ≤ 0.988813044612 := by
    apply exp_taylor_enclosure
    · rw [abs_le]; constructor <;> norm_num
    · simp only [Finset.sum_range_succ, Finset.sum_range_zero, Nat.factorial]
      rw [abs_of_neg (by norm_num)]
      norm_num
    · simp only [Finset.sum_range_succ, Finset.sum_range_zero, Nat.factorial]
      rw [abs_of_neg (by norm_num)]
      norm_num
  obtain ⟨h1, h2⟩ := norm_cdf_real_enclosure 0.15 0.106066016605 0.106066017356
    0.966420480209 0.96642048044 0.988813044611 0.988813044612
    (-0.42738808261) (-0.427388082364) 1.008377144869 1.008377145207
    0.690019588576 0.690019589136 0.921678654145 0.921678654846
    0.890729127537 0.890729128428 0.880764580523 0.880764581406
    (by norm_num) (by norm_num) (by norm_num) (by norm_num) (by norm_num) (by norm_num)
    (by norm_num) (by norm_num) hE.1 hE.2
    (by norm_num) (by norm_num) (by norm_num) (by norm_num) (by norm_num) (by norm_num)
    (by norm_num) (by norm_num) (by norm_num) (by norm_num) (by norm_num) (by norm_num)
    (by norm_num) (by norm_num) (by norm_num) (by norm_num) (by norm_num)
  constructor
  · linarith only [h1]
  · linarith only [h2]

/-- Enclosure of the discount factor `exp(-0.05 * 1)`. -/
theorem exp_discount_enclosure :
    0.9512294245 ≤ Real.exp (-0.05 * 1) ∧ Real.exp (-0.05 * 1) ≤ 0.951229424501 := by
  apply exp_taylor_enclosure
  · rw [abs_le]; constructor <;> norm_num
  · simp only [Finset.sum_range_succ, Finset.sum_range_zero, Nat.factorial]
    rw [abs_of_neg (by norm_num)]
    norm_num
  · simp only [Finset.sum_range_succ, Finset.sum_range_zero, Nat.factorial]
    rw [abs_of_neg (by norm_num)]
    norm_num

/-- At S = K = 100, T = 1, r = 0.05, sigma = 0.2, `d1` is `0.35`. -/
theorem d1_at_scenario : d1 realLibm 100 100 1 0.05 0.2 = 0.35 := by
  simp [d1, realLibm]
  norm_num

/-- At S = K = 100, T = 1, r = 0.05, sigma = 0.2, `d2` is `0.15`. -/
theorem d2_at_scenario : d2 realLibm 100 100 1 0.05 0.2 = 0.15 := by
  rw [d2, d1_at_scenario]
  simp [realLibm]
  norm_num

/-- C13: concrete scenario. For S = 100, K = 100, T = 1, r = 0.05, sigma = 0.2 and the real
`exp`, `log`, `sqrt`, the code's `call_price` is 10.4506, its `put_price` is 5.5735 and its
`delta` for a call is 0.6368, each with an absolute error below 5e-5. -/
theorem concrete_scenario :
    |call_price realLibm 100 100 1 0.05 0.2 - 10.4506| < 0.00005
    ∧ |put_price realLibm 100 100 1 0.05 0.2 - 5.5735| < 0.00005
    ∧ |delta realLibm 100 100 1 0.05 0.2 true - 0.6368| < 0.00005 := by
  obtain ⟨a1, a2⟩ := norm_cdf_real_at_035
  obtain ⟨b1, b2⟩ := norm_cdf_real_at_015
  obtain ⟨e1, e2⟩ := exp_discount_enclosure
  have hn1 : norm_cdf realLibm (-0.35) = 1 - norm_cdf realLibm 0.35 := by
    have := norm_cdf_add_neg realLibm (0.35 : ℝ) (by norm_num)
    linarith
  have hn2 : norm_cdf realLibm (-0.15) = 1 - norm_cdf realLibm 0.15 := by
    have := norm_cdf_add_neg realLibm (0.15 : ℝ) (by norm_num)
    linarith
  have he : realLibm.exp (-0.05 * 1) = Real.exp (-0.05 * 1) := rfl
  obtain ⟨p1, p2⟩ := mul_enclosure_pos (Real.exp (-0.05 * 1)) (norm_cdf realLibm 0.15)
    0.9512294245 0.951229424501 0.5596177092 0.5596177098 0.53232483 0.53232484
    (by norm_num) (by norm_num) e1 e2 b1 b2 (by norm_num) (by norm_num)
  refine ⟨?_, ?_, ?_⟩
  · simp only [call_price, d1_at_scenario, d2_at_scenario, he]
    rw [abs_lt]
    constructor
    · linarith only [a1, p2]
    · linarith only [a2, p1]
  · simp only [put_price, d1_at_scenario, d2_at_scenario, he, hn1, hn2]
    rw [abs_lt]
    constructor
    · linarith only [a1, p2, e1]
    · linarith only [a2, p1, e2]
  · simp only [delta, d1_at_scenario, if_true]
    rw [abs_lt]
    constructor
    · linarith only [a1]
    · linarith only [a2]

end BlackScholesEngine

namespace BlackScholesEngine

end BlackScholesEngine

namespace BlackScholesEngine

section Search

variable {α : Type} [LinearOrderedField α]

end Search

end BlackScholesEngine

namespace BlackScholesEngine

end BlackScholesEngine

namespace BlackScholesEngine

section UnitInterval

variable {α : Type} [LinearOrderedField α]

/-- The polynomial factor of `norm_cdf` lies in `[0, 2]` for `t` in `[0, 1]`. -/
theorem norm_cdf_poly_mem (t : α) (h0 : 0 ≤ t) (h1 : t ≤ 1) :
    0 ≤ (((((1.061405429 * t + -1.453152027) * t) + 1.421413741) * t + -0.284496736) * t
          + 0.254829592) * t
    ∧ (((((1.061405429 * t + -1.453152027) * t) + 1.421413741) * t + -0.284496736) * t
          + 0.254829592) * t ≤ 2 := by
  have hq : 0 ≤ ((((1.061405429 * t + -1.453152027) * t) + 1.421413741) * t + -0.284496736) * t
          + 0.254829592 := by
    nlinarith [sq_nonneg (t * t - 0.68 * t), sq_nonneg (t - 0.15), sq_nonneg t,
      sq_nonneg (t * t)]
  have h2 : t * t ≤ 1 := by nlinarith
  have h3 : 0 ≤ t * t * t := by positivity
  have h4 : t * t * t * t ≤ 1 := by nlinarith [mul_nonneg h0 h0]
  have hq2 : ((((1.061405429 * t + -1.453152027) * t) + 1.421413741) * t + -0.284496736) * t
          + 0.254829592 ≤ 2 := by nlinarith
  constructor
  · exact mul_nonneg hq h0
  · nlinarith

/-- The code's `norm_cdf` takes its values in `[0, 1]` for every math library whose `sqrt 2`
is positive and whose `exp` is nonnegative and at most 1 on nonpositive arguments. -/
theorem norm_cdf_mem_unit (m : Libm α) (hsqrt : 0 < m.sqrt 2) (hexp0 : ∀ z : α, 0 ≤ m.exp z)
    (hexp1 : ∀ z : α, z ≤ 0 → m.exp z ≤ 1) (x : α) :
    0 ≤ norm_cdf m x ∧ norm_cdf m x ≤ 1 := by
  simp only [norm_cdf]
  have hu : 0 ≤ |x| / m.sqrt 2 := div_nonneg (abs_nonneg x) hsqrt.le
  generalize |x| / m.sqrt 2 = u at hu ⊢
  have hden : 1 ≤ 1 + 0.3275911 * u := by nlinarith
  have ht0 : 0 ≤ 1 / (1 + 0.3275911 * u) := by positivity
  have ht1 : 1 / (1 + 0.3275911 * u) ≤ 1 := by
    rw [div_le_one (by linarith)]
    exact hden
  generalize 1 / (1 + 0.3275911 * u) = t at ht0 ht1 ⊢
  have hE0 : 0 ≤ m.exp (-u * u) := hexp0 _
  have hE1 : m.exp (-u * u) ≤ 1 := hexp1 _ (by nlinarith)
  generalize m.exp (-u * u) = E at hE0 hE1 ⊢
  obtain ⟨hq0, hq2⟩ := norm_cdf_poly_mem t ht0 ht1
  generalize (((((1.061405429 * t + -1.453152027) * t) + 1.421413741) * t + -0.284496736) * t
          + 0.254829592) * t = q at hq0 hq2 ⊢
  have hw0 : 0 ≤ q * E := mul_nonneg hq0 hE0
  have hw2 : q * E ≤ 2 := by nlinarith
  generalize q * E = w at hw0 hw2 ⊢
  by_cases hx : x < 0
  · simp only [hx, if_true]
    constructor <;> linarith
  · simp only [hx, if_false]
    constructor <;> linarith

/-- C19 (as amended): the code's `norm_cdf` is a probability in the closed sense. For every
math library whose `sqrt 2` is positive and whose `exp` is nonnegative and at most 1 on
nonpositive arguments, `0 ≤ norm_cdf(x) ≤ 1` for every x; consequently, for S > 0, K > 0,
T > 0, sigma > 0 and every r, `call_price ≤ S` and `put_price ≤ K * exp(-r*T)`. -/
theorem norm_cdf_is_closed_probability (m : Libm α) (hsqrt : 0 < m.sqrt 2)
    (hexp0 : ∀ z : α, 0 ≤ m.exp z) (hexp1 : ∀ z : α, z ≤ 0 → m.exp z ≤ 1) :
    (∀ x : α, 0 ≤ norm_cdf m x ∧ norm_cdf m x ≤ 1)
    ∧ (∀ S K T r sigma : α, 0 < S → 0 < K → 0 < T → 0 < sigma →
        call_price m S K T r sigma ≤ S
        ∧ put_price m S K T r sigma ≤ K * m.exp (-r * T)) := by
  refine ⟨norm_cdf_mem_unit m hsqrt hexp0 hexp1, ?_⟩
  intro S K T r sigma hS hK _ _
  have hE : 0 ≤ K * m.exp (-r * T) := mul_nonneg hK.le (hexp0 _)
  obtain ⟨a0, a1⟩ := norm_cdf_mem_unit m hsqrt hexp0 hexp1 (d1 m S K T r sigma)
  obtain ⟨b0, b1⟩ := norm_cdf_mem_unit m hsqrt hexp0 hexp1 (d2 m S K T r sigma)
  obtain ⟨c0, c1⟩ := norm_cdf_mem_unit m hsqrt hexp0 hexp1 (-d1 m S K T r sigma)
  obtain ⟨e0, e1⟩ := norm_cdf_mem_unit m hsqrt hexp0 hexp1 (-d2 m S K T r sigma)
  simp only [call_price, put_price]
  constructor
  · nlinarith [mul_nonneg hE b0, mul_nonneg hS.le (sub_nonneg.mpr a1)]
  · nlinarith [mul_nonneg hS.le c0, mul_nonneg hE (sub_nonneg.mpr e1)]

end UnitInterval

/-- The `exp` with underflow is 0 below -746. -/
theorem underflowLibm_exp_of_lt (z : ℝ) (h : z < -746) : underflowLibm.exp z = 0 := by
  simp only [underflowLibm, h, if_true]

/-- With the underflow of `exp`, `norm_cdf` is exactly 1 from 40 on and exactly 0 up to
-40. -/
theorem norm_cdf_underflow (x : ℝ) (hx : 40 ≤ x) :
    norm_cdf underflowLibm x = 1 ∧ norm_cdf underflowLibm (-x) = 0 := by
  have hx0 : 0 < x := by linarith
  have hs : underflowLibm.sqrt 2 = Real.sqrt 2 := rfl
  have harg : -(x / Real.sqrt 2) * (x / Real.sqrt 2) < -746 := by
    rw [norm_cdf_exp_arg]
    nlinarith
  have hE := underflowLibm_exp_of_lt _ harg
  constructor
  · simp only [norm_cdf, hs, abs_of_pos hx0, not_lt.mpr hx0.le, if_false, hE]
    norm_num
  · simp only [norm_cdf, hs, abs_neg, abs_of_pos hx0, neg_lt_zero.mpr hx0, if_true, hE]
    norm_num

/-- C19 (counterexample): with the underflow of `exp` in double precision, `norm_cdf(40)`
is exactly 1 and `norm_cdf(-40)` is exactly 0, so neither is strictly between 0 and 1; and
for S = K = 100, T = 1, r = 0, sigma = 100 (where `d1 = 50` and `d2 = -50`) the call price
is exactly S, not below it. -/
theorem norm_cdf_not_strict :
    norm_cdf underflowLibm 40 = 1 ∧ ¬ norm_cdf underflowLibm 40 < 1
    ∧ norm_cdf underflowLibm (-40) = 0 ∧ ¬ 0 < norm_cdf underflowLibm (-40)
    ∧ call_price underflowLibm 100 100 1 0 100 = 100
    ∧ ¬ call_price underflowLibm 100 100 1 0 100 < 100 := by
  obtain ⟨h1, h2⟩ := norm_cdf_underflow 40 (le_refl _)
  obtain ⟨h3, h4⟩ := norm_cdf_underflow 50 (by norm_num)
  have hd1 : d1 underflowLibm 100 100 1 0 100 = 50 := by
    simp only [d1, underflowLibm]
    rw [div_self (by norm_num), Real.log_one, Real.sqrt_one]
    norm_num
  have hd2 : d2 underflowLibm 100 100 1 0 100 = -50 := by
    rw [d2, hd1]
    simp only [underflowLibm]
    rw [Real.sqrt_one]
    norm_num
  have hc : call_price underflowLibm 100 100 1 0 100 = 100 := by
    simp only [call_price, hd1, hd2, h3, h4]
    norm_num
  refine ⟨h1, ?_, h2, ?_, hc, ?_⟩
  · rw [h1]
    exact lt_irrefl _
  · rw [h2]
    exact lt_irrefl _
  · rw [hc]
    exact lt_irrefl _

/-- Witness for C19 (as amended): the math library with the underflow of `exp`, at which
both bounds on `norm_cdf` and the bound on the call price are attained. -/
theorem norm_cdf_is_closed_probability_witness :
    (∀ x : ℝ, 0 ≤ norm_cdf underflowLibm x ∧ norm_cdf underflowLibm x ≤ 1)
    ∧ (∀ S K T r sigma : ℝ, 0 < S → 0 < K → 0 < T → 0 < sigma →
        call_price underflowLibm S K T r sigma ≤ S
        ∧ put_price underflowLibm S K T r sigma ≤ K * underflowLibm.exp (-r * T)) :=
  norm_cdf_is_closed_probability underflowLibm (Real.sqrt_pos.mpr (by norm_num))
    (fun z => by
      simp only [underflowLibm]
      split_ifs
      · exact le_refl _
      · exact (Real.exp_pos z).le)
    (fun z hz => by
      simp only [underflowLibm]
      split_ifs
      · exact zero_le_one
      · exact Real.exp_le_one_iff.mpr hz)

end BlackScholesEngine
